import Mathlib

/-!
Shallow embedding of `ga-change-primary-domain` (Go), file `lib/domainchanger.go`,
for checking the natural-language specification against the code.

Go strings are modelled as `List Char`; `strings.Split`/`strings.Join` with the
one-character separator `"@"` are modelled by `splitChar`/`joinChar` below.
Fallible code (a Go slice-index panic, or a `log.Fatalf` process exit) is
modelled with `Option`/an explicit `fatal` flag.  The remote Directory API is
modelled as explicit state: a listing call returns one page of the directory
(the code never follows a `nextPageToken`), an update call replaces the stored
record, an alias insert appends to the stored alias list.  Whether an update or
insert call fails at the transport level is a parameter (an oracle function),
since the remote end is an external collaborator.
-/

namespace GaChangePrimaryDomain

/-- Go strings, modelled byte/rune-wise as lists of characters. -/
abbrev GoStr := List Char

/-- Build a `GoStr` from a Lean string literal. -/
def gs (s : String) : GoStr := s.data

/-- Helper for `splitChar`: prepend a character to the first segment of a
split result (the segment currently being accumulated). -/
def consHead (c : Char) : List GoStr → List GoStr
  | [] => [[c]]
  | p :: ps => (c :: p) :: ps

/-- Model of Go `strings.Split(s, sep)` for a one-character separator `sep`
(the source only ever splits on `"@"`): splits around every occurrence of
`sep`; the result is never empty, and `splitChar sep [] = [[]]` just as
`strings.Split("", "@") = [""]` in Go. -/
def splitChar (sep : Char) : GoStr → List GoStr
  | [] => [[]]
  | c :: cs => if c = sep then [] :: splitChar sep cs else consHead c (splitChar sep cs)

/-- Model of Go `strings.Join(parts, sep)` for a one-character separator. -/
def joinChar (sep : Char) : List GoStr → GoStr
  | [] => []
  | [p] => p
  | p :: q :: ps => p ++ sep :: joinChar sep (q :: ps)

/-- Model of Go `strings.ToLower` (the source only compares the result against
the ASCII literals `"y"` and `"n"`). -/
def goToLower (s : GoStr) : GoStr := s.map Char.toLower

/-- Ascending lexicographic comparison of strings, modelling the
`OrderBy("email")` ordering the Directory API applies to a user listing. -/
def goStrLE : GoStr → GoStr → Bool
  | [], _ => true
  | _ :: _, [] => false
  | a :: as, b :: bs => if a = b then goStrLE as bs else decide (a < b)

/-- The `DomainChanger` receiver from `lib/domainchanger.go`; the `srv` and
`cust` fields are handles to the external Directory API and are modelled by
passing the remote state explicitly. -/
structure DomainChanger where
  oldDomain : GoStr
  newDomain : GoStr
deriving DecidableEq

/-- The customer record (`admin.Customer`): id and current primary domain. -/
structure Customer where
  id : GoStr
  customerDomain : GoStr
deriving DecidableEq

/-- A user record (`admin.User`): id, display name, primary email, aliases. -/
structure User where
  id : GoStr
  fullName : GoStr
  primaryEmail : GoStr
  aliases : List GoStr
deriving DecidableEq

/-- A group record (`admin.Group`): id, name, email, aliases. -/
structure Group where
  id : GoStr
  name : GoStr
  email : GoStr
  aliases : List GoStr
deriving DecidableEq

/-- `checkNewDomain` — true iff the customer's primary domain is not already
the new domain. -/
def checkNewDomain (d : DomainChanger) (cust : Customer) : Bool :=
  !(cust.customerDomain == d.newDomain)

/-- `changeEmailDomain` — Go source:
`addrParts := strings.Split(email, "@"); addrParts[1] = domain;
return strings.Join(addrParts, "@")`.
The write `addrParts[1] = domain` is an out-of-bounds slice access (a runtime
panic, crashing the process) whenever the split has fewer than two segments,
i.e. whenever `email` contains no `@`; `none` models that panic. -/
def changeEmailDomain (d : DomainChanger) (email domain : GoStr) : Option GoStr :=
  match splitChar '@' email with
  | p0 :: _ :: ps => some (joinChar '@' (p0 :: domain :: ps))
  | _ => none

/-- `emailNewDomain` — rewrite an address onto the new domain. -/
def emailNewDomain (d : DomainChanger) (email : GoStr) : Option GoStr :=
  changeEmailDomain d email d.newDomain

/-- `emailOldDomain` — rewrite an address onto the old domain. -/
def emailOldDomain (d : DomainChanger) (email : GoStr) : Option GoStr :=
  changeEmailDomain d email d.oldDomain

/-- `hasAlias` — linear scan, exact string equality. -/
def hasAlias (d : DomainChanger) (anAlias : GoStr) (aliases : List GoStr) : Bool :=
  aliases.any fun a => anAlias == a

/-- One mutation call issued against the Directory API. -/
inductive Call
  | usersUpdate (userKey : GoStr) (u : User)
  | userAliasInsert (userKey : GoStr) (address : GoStr) (primaryEmail : GoStr)
  | groupsUpdate (groupKey : GoStr) (g : Group)
  | groupAliasInsert (groupKey : GoStr) (address : GoStr) (email : GoStr)
deriving DecidableEq

/-- Outcome of `ChangePrimaryDomain`'s confirmation gates. -/
inductive DomainGate
  | abortRun
  | continueWithoutUpdate
  | updatedCustomer (c : Customer)
deriving DecidableEq

/-- `ChangePrimaryDomain` — the two confirmation gates.  If the customer's
primary domain already equals the new domain, one prompt is read: lowercased
`"n"` aborts (`log.Fatalln`), anything else returns without a customer update.
Otherwise one prompt is read: anything whose lowercasing is not `"y"` aborts
(`log.Fatalln`), `"y"` issues the customer update.  `code` is the single line
read from standard input on the path taken (transport failure of the customer
update, which the source treats as fatal, is outside this claim's scope and
not modelled). -/
def ChangePrimaryDomain (d : DomainChanger) (cust : Customer) (code : GoStr) : DomainGate :=
  if !(checkNewDomain d cust) then
    if goToLower code = gs "n" then .abortRun else .continueWithoutUpdate
  else if goToLower code ≠ gs "y" then .abortRun
  else .updatedCustomer { cust with customerDomain := d.newDomain }

/-- The loop body of `UpdateUserAliases`: walk the alias list of `u`; skip an
alias equal to `oldAddress`; otherwise rewrite it onto the new domain (panic
`none` if it has no `@`) and issue an insert call unless the candidate is
already in `u`'s (original) alias list.  Returns the insert calls issued, in
order. -/
def userAliasLoop (d : DomainChanger) (u : User) (oldAddress : GoStr) :
    List GoStr → Option (List Call)
  | [] => some []
  | a :: rest =>
    if a = oldAddress then userAliasLoop d u oldAddress rest
    else
      (emailNewDomain d a).bind fun newA =>
        (userAliasLoop d u oldAddress rest).map fun calls =>
          if hasAlias d newA u.aliases then calls
          else Call.userAliasInsert u.id newA u.primaryEmail :: calls

/-- `UpdateUserAliases` — computes `oldAddress` from the user's (current)
primary email, then runs the alias loop.  A failing insert call is only
reported (`fmt.Printf`), never fatal, so failure does not influence the calls
issued; `none` models the `changeEmailDomain` panic. -/
def UpdateUserAliases (d : DomainChanger) (u : User) : Option (List Call) :=
  (emailOldDomain d u.primaryEmail).bind fun oldAddress =>
    userAliasLoop d u oldAddress u.aliases

/-- Addresses of the alias-insert calls for user key `userKey` whose remote
insert succeeded (`ifail` says which attempted inserts fail at the API). -/
def insertedUserAliases (ifail : GoStr → GoStr → Bool) (userKey : GoStr) :
    List Call → List GoStr
  | [] => []
  | Call.userAliasInsert k x _ :: cs =>
    if k == userKey && !(ifail k x) then x :: insertedUserAliases ifail userKey cs
    else insertedUserAliases ifail userKey cs
  | Call.usersUpdate _ _ :: cs => insertedUserAliases ifail userKey cs
  | Call.groupsUpdate _ _ :: cs => insertedUserAliases ifail userKey cs
  | Call.groupAliasInsert _ _ _ :: cs => insertedUserAliases ifail userKey cs

/-- Processing of one listed user inside the `UpdateUsers` loop: rewrite the
primary email onto the new domain (panic `none` if malformed); if unchanged,
report "already" and issue no update; otherwise issue `Users.Update` — whose
failure is `log.Fatalf`, i.e. fatal (`true` flag; the remote record is then
left unchanged and nothing further runs) — then run `UpdateUserAliases` on the
user carrying the updated primary email.  Returns the user's resulting remote
record, the calls issued for it, and the fatal flag. -/
def processUser (d : DomainChanger) (uf : User → Bool) (ifail : GoStr → GoStr → Bool)
    (u : User) : Option (User × List Call × Bool) :=
  (emailNewDomain d u.primaryEmail).bind fun emailUpdate =>
    if emailUpdate = u.primaryEmail then
      (UpdateUserAliases d u).map fun ac =>
        ({ u with aliases := u.aliases ++ insertedUserAliases ifail u.id ac }, ac, false)
    else
      let u' : User := { u with primaryEmail := emailUpdate }
      if uf u' then some (u, [Call.usersUpdate u.id u'], true)
      else
        (UpdateUserAliases d u').map fun ac =>
          ({ u' with aliases := u'.aliases ++ insertedUserAliases ifail u.id ac },
            Call.usersUpdate u.id u' :: ac, false)

/-- Result of a bulk pass: resulting records, calls issued, and whether the
pass died in `log.Fatalf` part-way. -/
structure PassResult (α : Type) where
  state : List α
  calls : List Call
  fatal : Bool
deriving DecidableEq

/-- The `for _, u := range ru.Users` loop of `UpdateUsers`: process the listed
users in order; a fatal record stops the loop (the process exits), leaving the
remaining users untouched. -/
def usersLoop (d : DomainChanger) (uf : User → Bool) (ifail : GoStr → GoStr → Bool) :
    List User → Option (PassResult User)
  | [] => some ⟨[], [], false⟩
  | u :: rest =>
    (processUser d uf ifail u).bind fun r =>
      if r.2.2 then some ⟨r.1 :: rest, r.2.1, true⟩
      else
        (usersLoop d uf ifail rest).map fun pr =>
          ⟨r.1 :: pr.state, r.2.1 ++ pr.calls, pr.fatal⟩

/-- The single page returned by the one
`Users.List().Customer("my_customer").MaxResults(50).OrderBy("email").Do()`
call: the directory ordered ascending by primary email, truncated to the first
50 records.  The source never reads `nextPageToken`, so this is all the pass
ever sees. -/
def listUsers (dir : List User) : List User :=
  (List.insertionSort (fun a b => goStrLE a.primaryEmail b.primaryEmail = true) dir).take 50

/-- The directory after a pass: each stored record is replaced by its processed
version (matched by id) when the pass processed it. -/
def applyRunUsers (dir processed : List User) : List User :=
  dir.map fun u =>
    match processed.find? (fun p => p.id == u.id) with
    | some p => p
    | none => u

/-- `UpdateUsers` — list one page of users, run the loop, and fold the issued
mutations back into the directory state. -/
def UpdateUsers (d : DomainChanger) (uf : User → Bool) (ifail : GoStr → GoStr → Bool)
    (dir : List User) : Option (PassResult User) :=
  (usersLoop d uf ifail (listUsers dir)).map fun pr =>
    ⟨applyRunUsers dir pr.state, pr.calls, pr.fatal⟩

/-- The loop body of `UpdateGroupAliases`, mirror of `userAliasLoop`. -/
def groupAliasLoop (d : DomainChanger) (g : Group) (oldAddress : GoStr) :
    List GoStr → Option (List Call)
  | [] => some []
  | a :: rest =>
    if a = oldAddress then groupAliasLoop d g oldAddress rest
    else
      (emailNewDomain d a).bind fun newA =>
        (groupAliasLoop d g oldAddress rest).map fun calls =>
          if hasAlias d newA g.aliases then calls
          else Call.groupAliasInsert g.id newA g.email :: calls

/-- `UpdateGroupAliases` — mirror of `UpdateUserAliases` over a group. -/
def UpdateGroupAliases (d : DomainChanger) (g : Group) : Option (List Call) :=
  (emailOldDomain d g.email).bind fun oldAddress =>
    groupAliasLoop d g oldAddress g.aliases

/-- Successful group-alias inserts, mirror of `insertedUserAliases`. -/
def insertedGroupAliases (ifail : GoStr → GoStr → Bool) (groupKey : GoStr) :
    List Call → List GoStr
  | [] => []
  | Call.groupAliasInsert k x _ :: cs =>
    if k == groupKey && !(ifail k x) then x :: insertedGroupAliases ifail groupKey cs
    else insertedGroupAliases ifail groupKey cs
  | Call.usersUpdate _ _ :: cs => insertedGroupAliases ifail groupKey cs
  | Call.groupsUpdate _ _ :: cs => insertedGroupAliases ifail groupKey cs
  | Call.userAliasInsert _ _ _ :: cs => insertedGroupAliases ifail groupKey cs

/-- Processing of one listed group inside the `UpdateGroups` loop; a failing
`Groups.Update` is `log.Fatalf`, i.e. fatal, exactly as for users. -/
def processGroup (d : DomainChanger) (gf : Group → Bool) (ifail : GoStr → GoStr → Bool)
    (g : Group) : Option (Group × List Call × Bool) :=
  (emailNewDomain d g.email).bind fun emailUpdate =>
    if emailUpdate = g.email then
      (UpdateGroupAliases d g).map fun ac =>
        ({ g with aliases := g.aliases ++ insertedGroupAliases ifail g.id ac }, ac, false)
    else
      let g' : Group := { g with email := emailUpdate }
      if gf g' then some (g, [Call.groupsUpdate g.id g'], true)
      else
        (UpdateGroupAliases d g').map fun ac =>
          ({ g' with aliases := g'.aliases ++ insertedGroupAliases ifail g.id ac },
            Call.groupsUpdate g.id g' :: ac, false)

/-- The `for _, g := range gu.Groups` loop of `UpdateGroups`. -/
def groupsLoop (d : DomainChanger) (gf : Group → Bool) (ifail : GoStr → GoStr → Bool) :
    List Group → Option (PassResult Group)
  | [] => some ⟨[], [], false⟩
  | g :: rest =>
    (processGroup d gf ifail g).bind fun r =>
      if r.2.2 then some ⟨r.1 :: rest, r.2.1, true⟩
      else
        (groupsLoop d gf ifail rest).map fun pr =>
          ⟨r.1 :: pr.state, r.2.1 ++ pr.calls, pr.fatal⟩

/-- The single page returned by the one `Groups.List().Customer(id).Do()`
call.  The source requests no explicit page size or ordering and never reads
`nextPageToken`; per the Directory API the page is at most its default of 200
records, ordered by email (the spec's §6 listing contract). -/
def listGroups (dir : List Group) : List Group :=
  (List.insertionSort (fun a b => goStrLE a.email b.email = true) dir).take 200

/-- The group directory after a pass, mirror of `applyRunUsers`. -/
def applyRunGroups (dir processed : List Group) : List Group :=
  dir.map fun g =>
    match processed.find? (fun p => p.id == g.id) with
    | some p => p
    | none => g

/-- `UpdateGroups` — list one page of groups, run the loop, fold back. -/
def UpdateGroups (d : DomainChanger) (gf : Group → Bool) (ifail : GoStr → GoStr → Bool)
    (dir : List Group) : Option (PassResult Group) :=
  (groupsLoop d gf ifail (listGroups dir)).map fun pr =>
    ⟨applyRunGroups dir pr.state, pr.calls, pr.fatal⟩

/-- Result of the full reconciliation (user pass then group pass). -/
structure ReconResult where
  users : List User
  groups : List Group
  calls : List Call
  fatal : Bool
deriving DecidableEq

/-- The reconciliation part of `main`: `dc.UpdateUsers(); dc.UpdateGroups()`.
A fatal user pass exits the process before the group pass runs. -/
def reconcile (d : DomainChanger) (uf : User → Bool) (uifail : GoStr → GoStr → Bool)
    (gf : Group → Bool) (gifail : GoStr → GoStr → Bool)
    (udir : List User) (gdir : List Group) : Option ReconResult :=
  (UpdateUsers d uf uifail udir).bind fun ru =>
    if ru.fatal then some ⟨ru.state, gdir, ru.calls, true⟩
    else
      (UpdateGroups d gf gifail gdir).map fun rg =>
        ⟨ru.state, rg.state, ru.calls ++ rg.calls, rg.fatal⟩

/-- Transport oracle under which no update call fails. -/
def noUpdateFail : User → Bool := fun _ => false

/-- Transport oracle under which no group update call fails. -/
def noGroupUpdateFail : Group → Bool := fun _ => false

/-- Transport oracle under which no alias insert fails. -/
def noInsertFail : GoStr → GoStr → Bool := fun _ _ => false

/-! ### Lemmas about `splitChar` and `joinChar` -/

theorem splitChar_ne_nil (sep : Char) (s : GoStr) : splitChar sep s ≠ [] := by
  induction s with
  | nil => simp [splitChar]
  | cons c cs ih =>
    simp only [splitChar]
    split
    · simp
    · cases h : splitChar sep cs with
      | nil => simp [consHead]
      | cons p ps => simp [consHead]

theorem mem_consHead {p : GoStr} {c : Char} {l : List GoStr} (h : p ∈ consHead c l) :
    (p = [c] ∧ l = []) ∨ ∃ q qs, l = q :: qs ∧ (p = c :: q ∨ p ∈ qs) := by
  cases l with
  | nil => simp [consHead] at h; exact Or.inl ⟨h, rfl⟩
  | cons q qs =>
    simp [consHead] at h
    exact Or.inr ⟨q, qs, rfl, h⟩

theorem mem_splitChar_not_sep (sep : Char) (s : GoStr) :
    ∀ p ∈ splitChar sep s, sep ∉ p := by
  induction s with
  | nil => intro p hp; simp [splitChar] at hp; simp [hp]
  | cons c cs ih =>
    intro p hp
    simp only [splitChar] at hp
    by_cases hc : c = sep
    · simp [hc] at hp
      rcases hp with h | h
      · simp [h]
      · exact ih p h
    · simp [hc] at hp
      rcases mem_consHead hp with ⟨hp1, _⟩ | ⟨q, qs, hl, hq⟩
      · subst hp1
        simp
        exact fun h => hc h.symm
      · rcases hq with hq | hq
        · subst hq
          have hqmem : q ∈ splitChar sep cs := by rw [hl]; simp
          have := ih q hqmem
          simp [this]
          exact fun h => hc h.symm
        · exact ih p (by rw [hl]; exact List.mem_cons_of_mem _ hq)

theorem splitChar_of_not_mem (sep : Char) (l : GoStr) (h : sep ∉ l) :
    splitChar sep l = [l] := by
  induction l with
  | nil => simp [splitChar]
  | cons c cs ih =>
    simp at h
    simp only [splitChar]
    rw [if_neg (by intro hc; exact h.1 hc.symm), ih h.2, consHead]

theorem splitChar_append_cons (sep : Char) {l : GoStr} (r : GoStr) (h : sep ∉ l) :
    splitChar sep (l ++ sep :: r) = l :: splitChar sep r := by
  induction l with
  | nil => simp [splitChar]
  | cons c cs ih =>
    simp at h
    simp only [List.cons_append, splitChar, List.append_eq]
    rw [if_neg (by intro hc; exact h.1 hc.symm), ih h.2, consHead]

theorem splitChar_joinChar (sep : Char) :
    ∀ (l : List GoStr), l ≠ [] → (∀ p ∈ l, sep ∉ p) →
      splitChar sep (joinChar sep l) = l
  | [], h, _ => absurd rfl h
  | [p], _, hp => by
    simp only [joinChar]
    exact splitChar_of_not_mem sep p (hp p (by simp))
  | p :: q :: ps, _, hp => by
    have h1 : sep ∉ p := hp p (by simp)
    have h2 := splitChar_joinChar sep (q :: ps) (by simp)
      (fun r hr => hp r (List.mem_cons_of_mem p hr))
    simp only [joinChar]
    rw [splitChar_append_cons sep _ h1, h2]

/-! ### Lemmas about `changeEmailDomain` -/

theorem changeEmailDomain_of_split (d : DomainChanger) {email : GoStr} (domain : GoStr)
    {p0 p1 : GoStr} {ps : List GoStr} (h : splitChar '@' email = p0 :: p1 :: ps) :
    changeEmailDomain d email domain = some (joinChar '@' (p0 :: domain :: ps)) := by
  unfold changeEmailDomain
  rw [h]

theorem changeEmailDomain_inv {d : DomainChanger} {email domain r : GoStr}
    (h : changeEmailDomain d email domain = some r) :
    ∃ p0 p1 ps, splitChar '@' email = p0 :: p1 :: ps ∧
      r = joinChar '@' (p0 :: domain :: ps) := by
  unfold changeEmailDomain at h
  rcases hs : splitChar '@' email with _ | ⟨p0, _ | ⟨p1, ps⟩⟩ <;> rw [hs] at h
  · exact absurd h (by simp)
  · exact absurd h (by simp)
  · exact ⟨p0, p1, ps, rfl, (Option.some.injEq _ _ ▸ h).symm⟩

theorem changeEmailDomain_none {d : DomainChanger} {email domain : GoStr}
    (h : changeEmailDomain d email domain = none) (domain' : GoStr) :
    changeEmailDomain d email domain' = none := by
  unfold changeEmailDomain at h ⊢
  rcases hs : splitChar '@' email with _ | ⟨p0, _ | ⟨p1, ps⟩⟩ <;> rw [hs] at h <;> simp_all

theorem changeEmailDomain_some {d : DomainChanger} {email domain r : GoStr}
    (h : changeEmailDomain d email domain = some r) (domain' : GoStr) :
    ∃ r', changeEmailDomain d email domain' = some r' := by
  rcases changeEmailDomain_inv h with ⟨p0, p1, ps, hs, _⟩
  exact ⟨_, changeEmailDomain_of_split d domain' hs⟩

/-- Rewriting an address onto a domain with no `@` is idempotent. -/
theorem changeEmailDomain_idem {d : DomainChanger} {email domain r : GoStr}
    (hdom : '@' ∉ domain) (h : changeEmailDomain d email domain = some r) :
    changeEmailDomain d r domain = some r := by
  rcases changeEmailDomain_inv h with ⟨p0, p1, ps, hs, hr⟩
  have hparts : ∀ p ∈ p0 :: domain :: ps, '@' ∉ p := by
    intro p hp
    rcases hp with _ | ⟨_, hp⟩
    · exact mem_splitChar_not_sep '@' email p0 (by rw [hs]; simp)
    · rcases List.mem_cons.mp hp with hp | hp
      · subst hp; exact hdom
      · exact mem_splitChar_not_sep '@' email p
          (by rw [hs]; exact List.mem_cons_of_mem _ (List.mem_cons_of_mem _ hp))
  have hsplit : splitChar '@' r = p0 :: domain :: ps := by
    rw [hr]
    exact splitChar_joinChar '@' _ (by simp) hparts
  rw [changeEmailDomain_of_split d domain hsplit, hr]

/-! ### Lemmas about `hasAlias` and the user alias loop -/

theorem hasAlias_iff_mem (d : DomainChanger) (x : GoStr) (as : List GoStr) :
    hasAlias d x as = true ↔ x ∈ as := by
  simp [hasAlias, List.any_eq_true, beq_iff_eq]

/-- Every call issued by the alias loop is an insert, for this user, of a
new-domain rewrite of one of the walked aliases that is distinct from
`oldAddress` and absent from the user's alias list. -/
theorem userAliasLoop_calls {d : DomainChanger} {u : User} {oldAddress : GoStr} :
    ∀ {as : List GoStr} {cs : List Call}, userAliasLoop d u oldAddress as = some cs →
      ∀ c ∈ cs, ∃ a ∈ as, a ≠ oldAddress ∧ ∃ nA, emailNewDomain d a = some nA ∧
        hasAlias d nA u.aliases = false ∧ c = Call.userAliasInsert u.id nA u.primaryEmail
  | [], cs, h => by
    have hcs : cs = [] := by simpa [userAliasLoop] using h.symm
    subst hcs
    intro c hc
    exact absurd hc (List.not_mem_nil c)
  | a :: rest, cs, h => by
    intro c hc
    by_cases ha : a = oldAddress
    · rw [userAliasLoop, if_pos ha] at h
      rcases userAliasLoop_calls h c hc with ⟨a', ha', h'⟩
      exact ⟨a', List.mem_cons_of_mem _ ha', h'⟩
    · rw [userAliasLoop, if_neg ha] at h
      rcases Option.bind_eq_some.mp h with ⟨nA, hnA, h2⟩
      rcases Option.map_eq_some'.mp h2 with ⟨cs', hcs', hcseq⟩
      by_cases hmem : hasAlias d nA u.aliases
      · rw [if_pos hmem] at hcseq
        subst hcseq
        rcases userAliasLoop_calls hcs' c hc with ⟨a', ha', h'⟩
        exact ⟨a', List.mem_cons_of_mem _ ha', h'⟩
      · rw [if_neg hmem] at hcseq
        subst hcseq
        rcases List.mem_cons.mp hc with hc | hc
        · exact ⟨a, List.mem_cons_self a rest, ha, nA, hnA,
            Bool.not_eq_true _ ▸ eq_false_of_ne_true hmem, hc⟩
        · rcases userAliasLoop_calls hcs' c hc with ⟨a', ha', h'⟩
          exact ⟨a', List.mem_cons_of_mem _ ha', h'⟩

/-- Conversely, every walked alias distinct from `oldAddress` has its
new-domain rewrite either already in the user's alias list or inserted. -/
theorem userAliasLoop_complete {d : DomainChanger} {u : User} {oldAddress : GoStr} :
    ∀ {as : List GoStr} {cs : List Call}, userAliasLoop d u oldAddress as = some cs →
      ∀ a ∈ as, a ≠ oldAddress → ∃ nA, emailNewDomain d a = some nA ∧
        (hasAlias d nA u.aliases = true ∨ Call.userAliasInsert u.id nA u.primaryEmail ∈ cs)
  | [], cs, h => by simp
  | a :: rest, cs, h => by
    intro a' ha' hne
    by_cases ha : a = oldAddress
    · rw [userAliasLoop, if_pos ha] at h
      rcases List.mem_cons.mp ha' with rfl | ha'
      · exact absurd ha hne
      · exact userAliasLoop_complete h a' ha' hne
    · rw [userAliasLoop, if_neg ha] at h
      rcases Option.bind_eq_some.mp h with ⟨nA, hnA, h2⟩
      rcases Option.map_eq_some'.mp h2 with ⟨cs', hcs', hcseq⟩
      rcases List.mem_cons.mp ha' with rfl | ha'
      · refine ⟨nA, hnA, ?_⟩
        by_cases hmem : hasAlias d nA u.aliases
        · exact Or.inl hmem
        · rw [if_neg hmem] at hcseq
          subst hcseq
          exact Or.inr (List.mem_cons_self _ _)
      · rcases userAliasLoop_complete hcs' a' ha' hne with ⟨nA', hnA', hor⟩
        refine ⟨nA', hnA', ?_⟩
        rcases hor with hor | hor
        · exact Or.inl hor
        · refine Or.inr ?_
          subst hcseq
          split
          · exact hor
          · exact List.mem_cons_of_mem _ hor

/-- If every walked alias is either `oldAddress` or rewrites to an address
already among the user's aliases, the loop issues no call. -/
theorem userAliasLoop_nil {d : DomainChanger} {u : User} {oldAddress : GoStr} :
    ∀ {as : List GoStr},
      (∀ a ∈ as, a = oldAddress ∨ ∃ nA, emailNewDomain d a = some nA ∧
        hasAlias d nA u.aliases = true) →
      userAliasLoop d u oldAddress as = some []
  | [], _ => rfl
  | a :: rest, h => by
    have hrest := userAliasLoop_nil (fun a' ha' => h a' (List.mem_cons_of_mem _ ha'))
    rcases h a (List.mem_cons_self a rest) with ha | ⟨nA, hnA, hmem⟩
    · rw [userAliasLoop, if_pos ha]
      exact hrest
    · by_cases ha : a = oldAddress
      · rw [userAliasLoop, if_pos ha]
        exact hrest
      · rw [userAliasLoop, if_neg ha, hnA]
        simp [hrest, hmem]

/-! ### Lemmas about `insertedUserAliases` -/

theorem mem_insertedUserAliases {ifail : GoStr → GoStr → Bool} {k x : GoStr} :
    ∀ {cs : List Call}, x ∈ insertedUserAliases ifail k cs →
      ∃ k' p, Call.userAliasInsert k' x p ∈ cs
  | [], h => by simp [insertedUserAliases] at h
  | c :: cs, h => by
    match c with
    | Call.userAliasInsert k' x' p =>
      rw [insertedUserAliases] at h
      split at h
      · rcases List.mem_cons.mp h with rfl | h
        · exact ⟨k', p, List.mem_cons_self _ _⟩
        · rcases mem_insertedUserAliases h with ⟨k'', p', h'⟩
          exact ⟨k'', p', List.mem_cons_of_mem _ h'⟩
      · rcases mem_insertedUserAliases h with ⟨k'', p', h'⟩
        exact ⟨k'', p', List.mem_cons_of_mem _ h'⟩
    | Call.usersUpdate a b =>
      rw [insertedUserAliases] at h
      rcases mem_insertedUserAliases h with ⟨k'', p', h'⟩
      exact ⟨k'', p', List.mem_cons_of_mem _ h'⟩
    | Call.groupsUpdate a b =>
      rw [insertedUserAliases] at h
      rcases mem_insertedUserAliases h with ⟨k'', p', h'⟩
      exact ⟨k'', p', List.mem_cons_of_mem _ h'⟩
    | Call.groupAliasInsert a b e =>
      rw [insertedUserAliases] at h
      rcases mem_insertedUserAliases h with ⟨k'', p', h'⟩
      exact ⟨k'', p', List.mem_cons_of_mem _ h'⟩

theorem insert_mem_insertedUserAliases {k x p : GoStr} :
    ∀ {cs : List Call}, Call.userAliasInsert k x p ∈ cs →
      x ∈ insertedUserAliases noInsertFail k cs
  | [], h => by simp at h
  | c :: cs, h => by
    rcases List.mem_cons.mp h with rfl | h
    · rw [insertedUserAliases]
      simp [noInsertFail]
    · have ih := insert_mem_insertedUserAliases h
      match c with
      | Call.userAliasInsert k' x' p' =>
        rw [insertedUserAliases]
        split
        · exact List.mem_cons_of_mem _ ih
        · exact ih
      | Call.usersUpdate a b => rw [insertedUserAliases]; exact ih
      | Call.groupsUpdate a b => rw [insertedUserAliases]; exact ih
      | Call.groupAliasInsert a b e => rw [insertedUserAliases]; exact ih

theorem insertedUserAliases_nil (ifail : GoStr → GoStr → Bool) (k : GoStr) :
    insertedUserAliases ifail k [] = [] := rfl

/-! ### Lemmas about `listUsers` and `applyRunUsers` -/

theorem mem_listUsers {dir : List User} {u : User} (h : u ∈ listUsers dir) : u ∈ dir :=
  (List.perm_insertionSort _ dir).mem_iff.mp (List.mem_of_mem_take h)

theorem listUsers_of_length_le {dir : List User} (h : dir.length ≤ 50) :
    listUsers dir =
      List.insertionSort (fun a b => goStrLE a.primaryEmail b.primaryEmail = true) dir := by
  unfold listUsers
  exact List.take_of_length_le (by rw [(List.perm_insertionSort _ dir).length_eq]; exact h)

theorem applyRunUsers_mem {dir ps : List User}
    (hids : ∀ u ∈ dir, u.id ∈ ps.map User.id) :
    ∀ x ∈ applyRunUsers dir ps, x ∈ ps := by
  intro x hx
  unfold applyRunUsers at hx
  rcases List.mem_map.mp hx with ⟨u, hu, hxe⟩
  cases hfind : ps.find? (fun p => p.id == u.id) with
  | some p =>
    rw [hfind] at hxe
    rw [← hxe]
    exact List.mem_of_find?_eq_some hfind
  | none =>
    exfalso
    rcases List.mem_map.mp (hids u hu) with ⟨p, hp, hpe⟩
    have hsome : (ps.find? (fun p => p.id == u.id)).isSome :=
      List.find?_isSome.mpr ⟨p, hp, by simp [hpe]⟩
    rw [hfind] at hsome
    exact Bool.false_ne_true hsome

/-! ### Lemmas about `processUser` and `usersLoop` -/

/-- With a transport that never fails an update call, `processUser` never
reports a fatal record. -/
theorem processUser_not_fatal {d : DomainChanger} {ifail : GoStr → GoStr → Bool}
    {u : User} {r : User × List Call × Bool}
    (h : processUser d noUpdateFail ifail u = some r) : r.2.2 = false := by
  rcases Option.bind_eq_some.mp h with ⟨P, _, h2⟩
  by_cases hPe : P = u.primaryEmail
  · rw [if_pos hPe] at h2
    rcases Option.map_eq_some'.mp h2 with ⟨ac, _, heq⟩
    rw [← heq]
  · rw [if_neg hPe] at h2
    simp only [noUpdateFail, if_neg Bool.false_ne_true] at h2
    rcases Option.map_eq_some'.mp h2 with ⟨ac, _, heq⟩
    rw [← heq]

theorem processUser_id {d : DomainChanger} {uf : User → Bool}
    {ifail : GoStr → GoStr → Bool} {u : User} {r : User × List Call × Bool}
    (h : processUser d uf ifail u = some r) : r.1.id = u.id := by
  rcases Option.bind_eq_some.mp h with ⟨P, _, h2⟩
  by_cases hPe : P = u.primaryEmail
  · rw [if_pos hPe] at h2
    rcases Option.map_eq_some'.mp h2 with ⟨ac, _, heq⟩
    rw [← heq]
  · rw [if_neg hPe] at h2
    by_cases hf : uf { u with primaryEmail := P }
    · rw [if_pos hf] at h2
      rw [← Option.some.inj h2]
    · rw [if_neg hf] at h2
      rcases Option.map_eq_some'.mp h2 with ⟨ac, _, heq⟩
      rw [← heq]

/-- Inversion of a non-fatal `processUser` step under a never-failing update
transport: the primary email was rewritten successfully, the alias sub-pass
ran on the user carrying the (possibly unchanged) new primary, and the stored
record accumulated the successful inserts. -/
theorem processUser_inv {d : DomainChanger} {ifail : GoStr → GoStr → Bool}
    {u u1 : User} {cs : List Call} {b : Bool}
    (h : processUser d noUpdateFail ifail u = some (u1, cs, b)) :
    ∃ P ac, emailNewDomain d u.primaryEmail = some P ∧
      UpdateUserAliases d { u with primaryEmail := P } = some ac ∧
      u1 = { u with primaryEmail := P, aliases := u.aliases ++ insertedUserAliases ifail u.id ac } ∧
      b = false ∧
      (cs = ac ∨ cs = Call.usersUpdate u.id { u with primaryEmail := P } :: ac) := by
  rcases Option.bind_eq_some.mp h with ⟨P, hP, h2⟩
  by_cases hPe : P = u.primaryEmail
  · rw [if_pos hPe] at h2
    rcases Option.map_eq_some'.mp h2 with ⟨ac, hac, heq⟩
    subst hPe
    refine ⟨u.primaryEmail, ac, hP, hac, ?_, ?_, Or.inl ?_⟩
    · exact (congrArg (fun t => t.1) heq).symm
    · exact (congrArg (fun t => t.2.2) heq).symm
    · exact (congrArg (fun t => t.2.1) heq).symm
  · rw [if_neg hPe] at h2
    simp only [noUpdateFail, if_neg Bool.false_ne_true] at h2
    rcases Option.map_eq_some'.mp h2 with ⟨ac, hac, heq⟩
    refine ⟨P, ac, hP, hac, ?_, ?_, Or.inr ?_⟩
    · exact (congrArg (fun t => t.1) heq).symm
    · exact (congrArg (fun t => t.2.2) heq).symm
    · exact (congrArg (fun t => t.2.1) heq).symm

/-- A user record is converged when running the reconciler on it issues no
call, reports no fatal error, and leaves the record unchanged. -/
def convergedUser (d : DomainChanger) (u : User) : Prop :=
  processUser d noUpdateFail noInsertFail u = some (u, [], false)

/-- The record stored after one non-fatal reconciliation step is converged:
its primary email is a fixed point of the rewrite and every alias candidate is
already present, so a second step issues no call and changes nothing
(requires the new domain to contain no `@`, as any real domain does). -/
theorem convergedUser_build {d : DomainChanger} {w : User}
    (hP : emailNewDomain d w.primaryEmail = some w.primaryEmail)
    (hUA : UpdateUserAliases d w = some []) : convergedUser d w := by
  obtain ⟨i, n, pe, al⟩ := w
  unfold convergedUser processUser
  rw [hP, Option.some_bind, if_pos rfl, hUA, Option.map_some']
  simp [insertedUserAliases]

theorem processUser_converged {d : DomainChanger} {u u1 : User} {cs : List Call}
    (hdom : '@' ∉ d.newDomain)
    (h : processUser d noUpdateFail noInsertFail u = some (u1, cs, false)) :
    convergedUser d u1 := by
  obtain ⟨P, ac, hP, hAC, hu1, -, -⟩ := processUser_inv h
  have hPP : emailNewDomain d P = some P := changeEmailDomain_idem hdom hP
  rcases Option.bind_eq_some.mp hAC with ⟨oldA, holdA, hloop⟩
  have holdA' : emailOldDomain d P = some oldA := holdA
  have hloop' : userAliasLoop d { u with primaryEmail := P } oldA u.aliases = some ac :=
    hloop
  have hA1 : u1.aliases = u.aliases ++ insertedUserAliases noInsertFail u.id ac := by
    rw [hu1]
  have hcond : ∀ a ∈ u1.aliases, a = oldA ∨ ∃ nA, emailNewDomain d a = some nA ∧
      hasAlias d nA u1.aliases = true := by
    intro a ha
    rcases List.mem_append.mp (hA1 ▸ ha) with ha' | ha'
    · by_cases haold : a = oldA
      · exact Or.inl haold
      · rcases userAliasLoop_complete hloop' a ha' haold with ⟨nA, hnA, hor⟩
        refine Or.inr ⟨nA, hnA, (hasAlias_iff_mem d nA u1.aliases).mpr ?_⟩
        rw [hA1]
        rcases hor with hor | hor
        · exact List.mem_append.mpr (Or.inl ((hasAlias_iff_mem d nA u.aliases).mp hor))
        · exact List.mem_append.mpr (Or.inr (insert_mem_insertedUserAliases hor))
    · rcases mem_insertedUserAliases ha' with ⟨k', p, hcall⟩
      rcases userAliasLoop_calls hloop' _ hcall with ⟨src, -, -, nA, hnA, -, heq⟩
      have haeq : a = nA := by injection heq
      refine Or.inr ⟨a, ?_, (hasAlias_iff_mem d a u1.aliases).mpr ?_⟩
      · rw [haeq]
        exact changeEmailDomain_idem hdom hnA
      · rw [hA1]
        exact List.mem_append.mpr (Or.inr ha')
  have hP1 : emailNewDomain d u1.primaryEmail = some u1.primaryEmail := by
    rw [hu1]
    exact hPP
  have holdA1 : emailOldDomain d u1.primaryEmail = some oldA := by
    rw [hu1]
    exact holdA'
  have hUA1 : UpdateUserAliases d u1 = some [] := by
    unfold UpdateUserAliases
    rw [holdA1, Option.some_bind]
    exact userAliasLoop_nil hcond
  exact convergedUser_build hP1 hUA1

/-- With never-failing updates the user loop never turns fatal. -/
theorem usersLoop_not_fatal {d : DomainChanger} {ifail : GoStr → GoStr → Bool} :
    ∀ {us : List User} {pr : PassResult User},
      usersLoop d noUpdateFail ifail us = some pr → pr.fatal = false
  | [], pr, h => by
    have : pr = ⟨[], [], false⟩ := by simpa [usersLoop] using h.symm
    rw [this]
  | u :: rest, pr, h => by
    rcases Option.bind_eq_some.mp h with ⟨r, hr, h2⟩
    rw [processUser_not_fatal hr] at h2
    simp only [if_neg Bool.false_ne_true] at h2
    rcases Option.map_eq_some'.mp h2 with ⟨pr', hpr', heq⟩
    have hrec := usersLoop_not_fatal hpr'
    rw [← heq]
    exact hrec

/-- Every record stored by the user loop comes from a non-fatal
`processUser` step on one of the listed users. -/
theorem usersLoop_state {d : DomainChanger} {ifail : GoStr → GoStr → Bool} :
    ∀ {us : List User} {pr : PassResult User},
      usersLoop d noUpdateFail ifail us = some pr →
      ∀ p ∈ pr.state, ∃ u ∈ us, ∃ cs,
        processUser d noUpdateFail ifail u = some (p, cs, false)
  | [], pr, h => by
    have : pr = ⟨[], [], false⟩ := by simpa [usersLoop] using h.symm
    rw [this]
    intro p hp
    exact absurd hp (List.not_mem_nil p)
  | u :: rest, pr, h => by
    rcases Option.bind_eq_some.mp h with ⟨r, hr, h2⟩
    have hf := processUser_not_fatal hr
    rw [hf] at h2
    simp only [if_neg Bool.false_ne_true] at h2
    rcases Option.map_eq_some'.mp h2 with ⟨pr', hpr', heq⟩
    intro p hp
    rw [← heq] at hp
    rcases List.mem_cons.mp hp with rfl | hp
    · refine ⟨u, List.mem_cons_self u rest, r.2.1, ?_⟩
      rw [← hf]
      exact hr
    · rcases usersLoop_state hpr' p hp with ⟨u', hu', cs', h'⟩
      exact ⟨u', List.mem_cons_of_mem _ hu', cs', h'⟩

/-- Running the user loop over converged records issues no call and changes
no record. -/
theorem usersLoop_converged {d : DomainChanger} :
    ∀ {us : List User}, (∀ u ∈ us, convergedUser d u) →
      usersLoop d noUpdateFail noInsertFail us = some ⟨us, [], false⟩
  | [], _ => rfl
  | u :: rest, h => by
    have hu := h u (List.mem_cons_self u rest)
    have hrest := usersLoop_converged (fun u' hu' => h u' (List.mem_cons_of_mem _ hu'))
    unfold usersLoop
    rw [hu, Option.some_bind]
    simp only [if_neg Bool.false_ne_true]
    rw [hrest, Option.map_some']
    simp

/-- The user loop preserves the listed ids, in order. -/
theorem usersLoop_ids {d : DomainChanger} {uf : User → Bool}
    {ifail : GoStr → GoStr → Bool} :
    ∀ {us : List User} {pr : PassResult User},
      usersLoop d uf ifail us = some pr → pr.state.map User.id = us.map User.id
  | [], pr, h => by
    have : pr = ⟨[], [], false⟩ := by simpa [usersLoop] using h.symm
    rw [this]
  | u :: rest, pr, h => by
    rcases Option.bind_eq_some.mp h with ⟨r, hr, h2⟩
    by_cases hf : r.2.2
    · rw [if_pos hf] at h2
      rw [← Option.some.inj h2]
      simp [processUser_id hr]
    · rw [if_neg hf] at h2
      rcases Option.map_eq_some'.mp h2 with ⟨pr', hpr', heq⟩
      rw [← heq]
      simp [processUser_id hr, usersLoop_ids hpr']

/-- After one completed no-failure user pass over a directory that fits in
the single listed page, a second user pass issues no call and reports no
fatal error. -/
theorem UpdateUsers_second_run {d : DomainChanger} {dir : List User}
    {pr : PassResult User} (hdom : '@' ∉ d.newDomain) (hlen : dir.length ≤ 50)
    (h : UpdateUsers d noUpdateFail noInsertFail dir = some pr) :
    UpdateUsers d noUpdateFail noInsertFail pr.state =
      some ⟨applyRunUsers pr.state (listUsers pr.state), [], false⟩ := by
  unfold UpdateUsers at h
  rcases Option.map_eq_some'.mp h with ⟨pl, hpl, heq⟩
  have hstate : pr.state = applyRunUsers dir pl.state := by rw [← heq]
  have hconv : ∀ p ∈ pl.state, convergedUser d p := by
    intro p hp
    rcases usersLoop_state hpl p hp with ⟨u, -, cs, hproc⟩
    exact processUser_converged hdom hproc
  have hcover : ∀ x ∈ pr.state, x ∈ pl.state := by
    rw [hstate]
    refine applyRunUsers_mem ?_
    intro u hu
    rw [usersLoop_ids hpl, listUsers_of_length_le hlen]
    exact List.mem_map.mpr ⟨u, (List.perm_insertionSort _ dir).mem_iff.mpr hu, rfl⟩
  have hconv2 : ∀ x ∈ listUsers pr.state, convergedUser d x := by
    intro x hx
    exact hconv x (hcover x (mem_listUsers hx))
  unfold UpdateUsers
  rw [usersLoop_converged hconv2, Option.map_some']

/-! ### Group-side mirrors of the alias-loop lemmas -/

theorem groupAliasLoop_calls {d : DomainChanger} {g : Group} {oldAddress : GoStr} :
    ∀ {as : List GoStr} {cs : List Call}, groupAliasLoop d g oldAddress as = some cs →
      ∀ c ∈ cs, ∃ a ∈ as, a ≠ oldAddress ∧ ∃ nA, emailNewDomain d a = some nA ∧
        hasAlias d nA g.aliases = false ∧ c = Call.groupAliasInsert g.id nA g.email
  | [], cs, h => by
    have hcs : cs = [] := by simpa [groupAliasLoop] using h.symm
    subst hcs
    intro c hc
    exact absurd hc (List.not_mem_nil c)
  | a :: rest, cs, h => by
    intro c hc
    by_cases ha : a = oldAddress
    · rw [groupAliasLoop, if_pos ha] at h
      rcases groupAliasLoop_calls h c hc with ⟨a', ha', h'⟩
      exact ⟨a', List.mem_cons_of_mem _ ha', h'⟩
    · rw [groupAliasLoop, if_neg ha] at h
      rcases Option.bind_eq_some.mp h with ⟨nA, hnA, h2⟩
      rcases Option.map_eq_some'.mp h2 with ⟨cs', hcs', hcseq⟩
      by_cases hmem : hasAlias d nA g.aliases
      · rw [if_pos hmem] at hcseq
        subst hcseq
        rcases groupAliasLoop_calls hcs' c hc with ⟨a', ha', h'⟩
        exact ⟨a', List.mem_cons_of_mem _ ha', h'⟩
      · rw [if_neg hmem] at hcseq
        subst hcseq
        rcases List.mem_cons.mp hc with hc | hc
        · exact ⟨a, List.mem_cons_self a rest, ha, nA, hnA,
            Bool.not_eq_true _ ▸ eq_false_of_ne_true hmem, hc⟩
        · rcases groupAliasLoop_calls hcs' c hc with ⟨a', ha', h'⟩
          exact ⟨a', List.mem_cons_of_mem _ ha', h'⟩

theorem groupAliasLoop_complete {d : DomainChanger} {g : Group} {oldAddress : GoStr} :
    ∀ {as : List GoStr} {cs : List Call}, groupAliasLoop d g oldAddress as = some cs →
      ∀ a ∈ as, a ≠ oldAddress → ∃ nA, emailNewDomain d a = some nA ∧
        (hasAlias d nA g.aliases = true ∨ Call.groupAliasInsert g.id nA g.email ∈ cs)
  | [], cs, h => by simp
  | a :: rest, cs, h => by
    intro a' ha' hne
    by_cases ha : a = oldAddress
    · rw [groupAliasLoop, if_pos ha] at h
      rcases List.mem_cons.mp ha' with rfl | ha'
      · exact absurd ha hne
      · exact groupAliasLoop_complete h a' ha' hne
    · rw [groupAliasLoop, if_neg ha] at h
      rcases Option.bind_eq_some.mp h with ⟨nA, hnA, h2⟩
      rcases Option.map_eq_some'.mp h2 with ⟨cs', hcs', hcseq⟩
      rcases List.mem_cons.mp ha' with rfl | ha'
      · refine ⟨nA, hnA, ?_⟩
        by_cases hmem : hasAlias d nA g.aliases
        · exact Or.inl hmem
        · rw [if_neg hmem] at hcseq
          subst hcseq
          exact Or.inr (List.mem_cons_self _ _)
      · rcases groupAliasLoop_complete hcs' a' ha' hne with ⟨nA', hnA', hor⟩
        refine ⟨nA', hnA', ?_⟩
        rcases hor with hor | hor
        · exact Or.inl hor
        · refine Or.inr ?_
          subst hcseq
          split
          · exact hor
          · exact List.mem_cons_of_mem _ hor

theorem groupAliasLoop_nil {d : DomainChanger} {g : Group} {oldAddress : GoStr} :
    ∀ {as : List GoStr},
      (∀ a ∈ as, a = oldAddress ∨ ∃ nA, emailNewDomain d a = some nA ∧
        hasAlias d nA g.aliases = true) →
      groupAliasLoop d g oldAddress as = some []
  | [], _ => rfl
  | a :: rest, h => by
    have hrest := groupAliasLoop_nil (fun a' ha' => h a' (List.mem_cons_of_mem _ ha'))
    rcases h a (List.mem_cons_self a rest) with ha | ⟨nA, hnA, hmem⟩
    · rw [groupAliasLoop, if_pos ha]
      exact hrest
    · by_cases ha : a = oldAddress
      · rw [groupAliasLoop, if_pos ha]
        exact hrest
      · rw [groupAliasLoop, if_neg ha, hnA]
        simp [hrest, hmem]

theorem mem_insertedGroupAliases {ifail : GoStr → GoStr → Bool} {k x : GoStr} :
    ∀ {cs : List Call}, x ∈ insertedGroupAliases ifail k cs →
      ∃ k' e, Call.groupAliasInsert k' x e ∈ cs
  | [], h => by simp [insertedGroupAliases] at h
  | c :: cs, h => by
    match c with
    | Call.groupAliasInsert k' x' e =>
      rw [insertedGroupAliases] at h
      split at h
      · rcases List.mem_cons.mp h with rfl | h
        · exact ⟨k', e, List.mem_cons_self _ _⟩
        · rcases mem_insertedGroupAliases h with ⟨k'', e', h'⟩
          exact ⟨k'', e', List.mem_cons_of_mem _ h'⟩
      · rcases mem_insertedGroupAliases h with ⟨k'', e', h'⟩
        exact ⟨k'', e', List.mem_cons_of_mem _ h'⟩
    | Call.usersUpdate a b =>
      rw [insertedGroupAliases] at h
      rcases mem_insertedGroupAliases h with ⟨k'', e', h'⟩
      exact ⟨k'', e', List.mem_cons_of_mem _ h'⟩
    | Call.groupsUpdate a b =>
      rw [insertedGroupAliases] at h
      rcases mem_insertedGroupAliases h with ⟨k'', e', h'⟩
      exact ⟨k'', e', List.mem_cons_of_mem _ h'⟩
    | Call.userAliasInsert a b e =>
      rw [insertedGroupAliases] at h
      rcases mem_insertedGroupAliases h with ⟨k'', e', h'⟩
      exact ⟨k'', e', List.mem_cons_of_mem _ h'⟩

theorem insert_mem_insertedGroupAliases {k x e : GoStr} :
    ∀ {cs : List Call}, Call.groupAliasInsert k x e ∈ cs →
      x ∈ insertedGroupAliases noInsertFail k cs
  | [], h => by simp at h
  | c :: cs, h => by
    rcases List.mem_cons.mp h with rfl | h
    · rw [insertedGroupAliases]
      simp [noInsertFail]
    · have ih := insert_mem_insertedGroupAliases h
      match c with
      | Call.groupAliasInsert k' x' e' =>
        rw [insertedGroupAliases]
        split
        · exact List.mem_cons_of_mem _ ih
        · exact ih
      | Call.usersUpdate a b => rw [insertedGroupAliases]; exact ih
      | Call.groupsUpdate a b => rw [insertedGroupAliases]; exact ih
      | Call.userAliasInsert a b e'' => rw [insertedGroupAliases]; exact ih

/-! ### Lemmas about `listGroups` and `applyRunGroups` -/

theorem mem_listGroups {dir : List Group} {g : Group} (h : g ∈ listGroups dir) : g ∈ dir :=
  (List.perm_insertionSort _ dir).mem_iff.mp (List.mem_of_mem_take h)

theorem listGroups_of_length_le {dir : List Group} (h : dir.length ≤ 200) :
    listGroups dir =
      List.insertionSort (fun a b => goStrLE a.email b.email = true) dir := by
  unfold listGroups
  exact List.take_of_length_le (by rw [(List.perm_insertionSort _ dir).length_eq]; exact h)

theorem applyRunGroups_mem {dir ps : List Group}
    (hids : ∀ g ∈ dir, g.id ∈ ps.map Group.id) :
    ∀ x ∈ applyRunGroups dir ps, x ∈ ps := by
  intro x hx
  unfold applyRunGroups at hx
  rcases List.mem_map.mp hx with ⟨g, hg, hxe⟩
  cases hfind : ps.find? (fun p => p.id == g.id) with
  | some p =>
    rw [hfind] at hxe
    rw [← hxe]
    exact List.mem_of_find?_eq_some hfind
  | none =>
    exfalso
    rcases List.mem_map.mp (hids g hg) with ⟨p, hp, hpe⟩
    have hsome : (ps.find? (fun p => p.id == g.id)).isSome :=
      List.find?_isSome.mpr ⟨p, hp, by simp [hpe]⟩
    rw [hfind] at hsome
    exact Bool.false_ne_true hsome

/-! ### Lemmas about `processGroup` and `groupsLoop` -/

theorem processGroup_not_fatal {d : DomainChanger} {ifail : GoStr → GoStr → Bool}
    {g : Group} {r : Group × List Call × Bool}
    (h : processGroup d noGroupUpdateFail ifail g = some r) : r.2.2 = false := by
  rcases Option.bind_eq_some.mp h with ⟨P, _, h2⟩
  by_cases hPe : P = g.email
  · rw [if_pos hPe] at h2
    rcases Option.map_eq_some'.mp h2 with ⟨ac, _, heq⟩
    rw [← heq]
  · rw [if_neg hPe] at h2
    simp only [noGroupUpdateFail, if_neg Bool.false_ne_true] at h2
    rcases Option.map_eq_some'.mp h2 with ⟨ac, _, heq⟩
    rw [← heq]

theorem processGroup_id {d : DomainChanger} {gf : Group → Bool}
    {ifail : GoStr → GoStr → Bool} {g : Group} {r : Group × List Call × Bool}
    (h : processGroup d gf ifail g = some r) : r.1.id = g.id := by
  rcases Option.bind_eq_some.mp h with ⟨P, _, h2⟩
  by_cases hPe : P = g.email
  · rw [if_pos hPe] at h2
    rcases Option.map_eq_some'.mp h2 with ⟨ac, _, heq⟩
    rw [← heq]
  · rw [if_neg hPe] at h2
    by_cases hf : gf { g with email := P }
    · rw [if_pos hf] at h2
      rw [← Option.some.inj h2]
    · rw [if_neg hf] at h2
      rcases Option.map_eq_some'.mp h2 with ⟨ac, _, heq⟩
      rw [← heq]

theorem processGroup_inv {d : DomainChanger} {ifail : GoStr → GoStr → Bool}
    {g g1 : Group} {cs : List Call} {b : Bool}
    (h : processGroup d noGroupUpdateFail ifail g = some (g1, cs, b)) :
    ∃ P ac, emailNewDomain d g.email = some P ∧
      UpdateGroupAliases d { g with email := P } = some ac ∧
      g1 = { g with email := P, aliases := g.aliases ++ insertedGroupAliases ifail g.id ac } ∧
      b = false ∧
      (cs = ac ∨ cs = Call.groupsUpdate g.id { g with email := P } :: ac) := by
  rcases Option.bind_eq_some.mp h with ⟨P, hP, h2⟩
  by_cases hPe : P = g.email
  · rw [if_pos hPe] at h2
    rcases Option.map_eq_some'.mp h2 with ⟨ac, hac, heq⟩
    subst hPe
    refine ⟨g.email, ac, hP, hac, ?_, ?_, Or.inl ?_⟩
    · exact (congrArg (fun t => t.1) heq).symm
    · exact (congrArg (fun t => t.2.2) heq).symm
    · exact (congrArg (fun t => t.2.1) heq).symm
  · rw [if_neg hPe] at h2
    simp only [noGroupUpdateFail, if_neg Bool.false_ne_true] at h2
    rcases Option.map_eq_some'.mp h2 with ⟨ac, hac, heq⟩
    refine ⟨P, ac, hP, hac, ?_, ?_, Or.inr ?_⟩
    · exact (congrArg (fun t => t.1) heq).symm
    · exact (congrArg (fun t => t.2.2) heq).symm
    · exact (congrArg (fun t => t.2.1) heq).symm

/-- A group record is converged when the reconciler step on it issues no
call and leaves the record unchanged. -/
def convergedGroup (d : DomainChanger) (g : Group) : Prop :=
  processGroup d noGroupUpdateFail noInsertFail g = some (g, [], false)

theorem convergedGroup_build {d : DomainChanger} {w : Group}
    (hP : emailNewDomain d w.email = some w.email)
    (hUA : UpdateGroupAliases d w = some []) : convergedGroup d w := by
  obtain ⟨i, n, pe, al⟩ := w
  unfold convergedGroup processGroup
  rw [hP, Option.some_bind, if_pos rfl, hUA, Option.map_some']
  simp [insertedGroupAliases]

theorem processGroup_converged {d : DomainChanger} {g g1 : Group} {cs : List Call}
    (hdom : '@' ∉ d.newDomain)
    (h : processGroup d noGroupUpdateFail noInsertFail g = some (g1, cs, false)) :
    convergedGroup d g1 := by
  obtain ⟨P, ac, hP, hAC, hg1, -, -⟩ := processGroup_inv h
  have hPP : emailNewDomain d P = some P := changeEmailDomain_idem hdom hP
  rcases Option.bind_eq_some.mp hAC with ⟨oldA, holdA, hloop⟩
  have holdA' : emailOldDomain d P = some oldA := holdA
  have hloop' : groupAliasLoop d { g with email := P } oldA g.aliases = some ac := hloop
  have hA1 : g1.aliases = g.aliases ++ insertedGroupAliases noInsertFail g.id ac := by
    rw [hg1]
  have hcond : ∀ a ∈ g1.aliases, a = oldA ∨ ∃ nA, emailNewDomain d a = some nA ∧
      hasAlias d nA g1.aliases = true := by
    intro a ha
    rcases List.mem_append.mp (hA1 ▸ ha) with ha' | ha'
    · by_cases haold : a = oldA
      · exact Or.inl haold
      · rcases groupAliasLoop_complete hloop' a ha' haold with ⟨nA, hnA, hor⟩
        refine Or.inr ⟨nA, hnA, (hasAlias_iff_mem d nA g1.aliases).mpr ?_⟩
        rw [hA1]
        rcases hor with hor | hor
        · exact List.mem_append.mpr (Or.inl ((hasAlias_iff_mem d nA g.aliases).mp hor))
        · exact List.mem_append.mpr (Or.inr (insert_mem_insertedGroupAliases hor))
    · rcases mem_insertedGroupAliases ha' with ⟨k', e, hcall⟩
      rcases groupAliasLoop_calls hloop' _ hcall with ⟨src, -, -, nA, hnA, -, heq⟩
      have haeq : a = nA := by injection heq
      refine Or.inr ⟨a, ?_, (hasAlias_iff_mem d a g1.aliases).mpr ?_⟩
      · rw [haeq]
        exact changeEmailDomain_idem hdom hnA
      · rw [hA1]
        exact List.mem_append.mpr (Or.inr ha')
  have hP1 : emailNewDomain d g1.email = some g1.email := by
    rw [hg1]
    exact hPP
  have holdA1 : emailOldDomain d g1.email = some oldA := by
    rw [hg1]
    exact holdA'
  have hUA1 : UpdateGroupAliases d g1 = some [] := by
    unfold UpdateGroupAliases
    rw [holdA1, Option.some_bind]
    exact groupAliasLoop_nil hcond
  exact convergedGroup_build hP1 hUA1

theorem groupsLoop_not_fatal {d : DomainChanger} {ifail : GoStr → GoStr → Bool} :
    ∀ {gs' : List Group} {pr : PassResult Group},
      groupsLoop d noGroupUpdateFail ifail gs' = some pr → pr.fatal = false
  | [], pr, h => by
    have : pr = ⟨[], [], false⟩ := by simpa [groupsLoop] using h.symm
    rw [this]
  | g :: rest, pr, h => by
    rcases Option.bind_eq_some.mp h with ⟨r, hr, h2⟩
    rw [processGroup_not_fatal hr] at h2
    simp only [if_neg Bool.false_ne_true] at h2
    rcases Option.map_eq_some'.mp h2 with ⟨pr', hpr', heq⟩
    have hrec := groupsLoop_not_fatal hpr'
    rw [← heq]
    exact hrec

theorem groupsLoop_state {d : DomainChanger} {ifail : GoStr → GoStr → Bool} :
    ∀ {gs' : List Group} {pr : PassResult Group},
      groupsLoop d noGroupUpdateFail ifail gs' = some pr →
      ∀ p ∈ pr.state, ∃ g ∈ gs', ∃ cs,
        processGroup d noGroupUpdateFail ifail g = some (p, cs, false)
  | [], pr, h => by
    have : pr = ⟨[], [], false⟩ := by simpa [groupsLoop] using h.symm
    rw [this]
    intro p hp
    exact absurd hp (List.not_mem_nil p)
  | g :: rest, pr, h => by
    rcases Option.bind_eq_some.mp h with ⟨r, hr, h2⟩
    have hf := processGroup_not_fatal hr
    rw [hf] at h2
    simp only [if_neg Bool.false_ne_true] at h2
    rcases Option.map_eq_some'.mp h2 with ⟨pr', hpr', heq⟩
    intro p hp
    rw [← heq] at hp
    rcases List.mem_cons.mp hp with rfl | hp
    · refine ⟨g, List.mem_cons_self g rest, r.2.1, ?_⟩
      rw [← hf]
      exact hr
    · rcases groupsLoop_state hpr' p hp with ⟨g', hg', cs', h'⟩
      exact ⟨g', List.mem_cons_of_mem _ hg', cs', h'⟩

theorem groupsLoop_converged {d : DomainChanger} :
    ∀ {gs' : List Group}, (∀ g ∈ gs', convergedGroup d g) →
      groupsLoop d noGroupUpdateFail noInsertFail gs' = some ⟨gs', [], false⟩
  | [], _ => rfl
  | g :: rest, h => by
    have hg := h g (List.mem_cons_self g rest)
    have hrest := groupsLoop_converged (fun g' hg' => h g' (List.mem_cons_of_mem _ hg'))
    unfold groupsLoop
    rw [hg, Option.some_bind]
    simp only [if_neg Bool.false_ne_true]
    rw [hrest, Option.map_some']
    simp

theorem groupsLoop_ids {d : DomainChanger} {gf : Group → Bool}
    {ifail : GoStr → GoStr → Bool} :
    ∀ {gs' : List Group} {pr : PassResult Group},
      groupsLoop d gf ifail gs' = some pr → pr.state.map Group.id = gs'.map Group.id
  | [], pr, h => by
    have : pr = ⟨[], [], false⟩ := by simpa [groupsLoop] using h.symm
    rw [this]
  | g :: rest, pr, h => by
    rcases Option.bind_eq_some.mp h with ⟨r, hr, h2⟩
    by_cases hf : r.2.2
    · rw [if_pos hf] at h2
      rw [← Option.some.inj h2]
      simp [processGroup_id hr]
    · rw [if_neg hf] at h2
      rcases Option.map_eq_some'.mp h2 with ⟨pr', hpr', heq⟩
      rw [← heq]
      simp [processGroup_id hr, groupsLoop_ids hpr']

/-- After one completed no-failure group pass over a directory that fits in
the single listed page, a second group pass issues no call and reports no
fatal error. -/
theorem UpdateGroups_second_run {d : DomainChanger} {dir : List Group}
    {pr : PassResult Group} (hdom : '@' ∉ d.newDomain) (hlen : dir.length ≤ 200)
    (h : UpdateGroups d noGroupUpdateFail noInsertFail dir = some pr) :
    UpdateGroups d noGroupUpdateFail noInsertFail pr.state =
      some ⟨applyRunGroups pr.state (listGroups pr.state), [], false⟩ := by
  unfold UpdateGroups at h
  rcases Option.map_eq_some'.mp h with ⟨pl, hpl, heq⟩
  have hstate : pr.state = applyRunGroups dir pl.state := by rw [← heq]
  have hconv : ∀ p ∈ pl.state, convergedGroup d p := by
    intro p hp
    rcases groupsLoop_state hpl p hp with ⟨g, -, cs, hproc⟩
    exact processGroup_converged hdom hproc
  have hcover : ∀ x ∈ pr.state, x ∈ pl.state := by
    rw [hstate]
    refine applyRunGroups_mem ?_
    intro g hg
    rw [groupsLoop_ids hpl, listGroups_of_length_le hlen]
    exact List.mem_map.mpr ⟨g, (List.perm_insertionSort _ dir).mem_iff.mpr hg, rfl⟩
  have hconv2 : ∀ x ∈ listGroups pr.state, convergedGroup d x := by
    intro x hx
    exact hconv x (hcover x (mem_listGroups hx))
  unfold UpdateGroups
  rw [groupsLoop_converged hconv2, Option.map_some']

/-! ### Error-policy lemmas: a failed update is fatal, a failed insert is not -/

/-- A listed user that needs a rename and whose `Users.Update` call fails
stops the whole pass via `log.Fatalf`: one update call in the trace, fatal
flag set, no record changed, the remaining users never processed. -/
theorem usersLoop_update_failure_fatal (d : DomainChanger) (ifail : GoStr → GoStr → Bool)
    (uf : User → Bool) (u : User) (rest : List User) (e : GoStr)
    (hE : emailNewDomain d u.primaryEmail = some e) (hne : e ≠ u.primaryEmail)
    (hf : uf { u with primaryEmail := e } = true) :
    usersLoop d uf ifail (u :: rest) =
      some ⟨u :: rest, [Call.usersUpdate u.id { u with primaryEmail := e }], true⟩ := by
  unfold usersLoop processUser
  rw [hE, Option.some_bind, if_neg hne, if_pos hf, Option.some_bind]
  rfl

theorem groupsLoop_update_failure_fatal (d : DomainChanger) (ifail : GoStr → GoStr → Bool)
    (gf : Group → Bool) (g : Group) (rest : List Group) (e : GoStr)
    (hE : emailNewDomain d g.email = some e) (hne : e ≠ g.email)
    (hf : gf { g with email := e } = true) :
    groupsLoop d gf ifail (g :: rest) =
      some ⟨g :: rest, [Call.groupsUpdate g.id { g with email := e }], true⟩ := by
  unfold groupsLoop processGroup
  rw [hE, Option.some_bind, if_neg hne, if_pos hf, Option.some_bind]
  rfl

/-- Which (if any) alias inserts fail at the transport has no influence on
the calls a `processUser` step issues or on whether it is fatal; an insert
failure is only reported. -/
theorem processUser_proj (d : DomainChanger) (uf : User → Bool)
    (i1 i2 : GoStr → GoStr → Bool) (u : User) :
    (processUser d uf i1 u).map (fun r => (r.2.1, r.2.2)) =
      (processUser d uf i2 u).map (fun r => (r.2.1, r.2.2)) := by
  unfold processUser
  cases hE : emailNewDomain d u.primaryEmail with
  | none => rfl
  | some e =>
    simp only [Option.some_bind]
    by_cases hPe : e = u.primaryEmail
    · simp only [if_pos hPe]
      cases hUA : UpdateUserAliases d u with
      | none => rfl
      | some ac => rfl
    · simp only [if_neg hPe]
      by_cases hf : uf { u with primaryEmail := e }
      · simp only [if_pos hf]
      · simp only [if_neg hf]
        cases hUA : UpdateUserAliases d { u with primaryEmail := e } with
        | none => rfl
        | some ac => rfl

theorem processGroup_proj (d : DomainChanger) (gf : Group → Bool)
    (i1 i2 : GoStr → GoStr → Bool) (g : Group) :
    (processGroup d gf i1 g).map (fun r => (r.2.1, r.2.2)) =
      (processGroup d gf i2 g).map (fun r => (r.2.1, r.2.2)) := by
  unfold processGroup
  cases hE : emailNewDomain d g.email with
  | none => rfl
  | some e =>
    simp only [Option.some_bind]
    by_cases hPe : e = g.email
    · simp only [if_pos hPe]
      cases hUA : UpdateGroupAliases d g with
      | none => rfl
      | some ac => rfl
    · simp only [if_neg hPe]
      by_cases hf : gf { g with email := e }
      · simp only [if_pos hf]
      · simp only [if_neg hf]
        cases hUA : UpdateGroupAliases d { g with email := e } with
        | none => rfl
        | some ac => rfl

/-- The whole user loop issues the same calls with the same fatality
verdict whatever the insert-failure oracle says. -/
theorem usersLoop_proj (d : DomainChanger) (uf : User → Bool)
    (i1 i2 : GoStr → GoStr → Bool) :
    ∀ us : List User,
      (usersLoop d uf i1 us).map (fun pr => (pr.calls, pr.fatal)) =
        (usersLoop d uf i2 us).map (fun pr => (pr.calls, pr.fatal))
  | [] => rfl
  | u :: rest => by
    have hp := processUser_proj d uf i1 i2 u
    have hrec := usersLoop_proj d uf i1 i2 rest
    unfold usersLoop
    cases h1 : processUser d uf i1 u with
    | none =>
      rw [h1] at hp
      cases h2 : processUser d uf i2 u with
      | none => rfl
      | some r2 =>
        rw [h2] at hp
        exact absurd hp (by simp)
    | some r1 =>
      rw [h1] at hp
      cases h2 : processUser d uf i2 u with
      | none =>
        rw [h2] at hp
        exact absurd hp (by simp)
      | some r2 =>
        rw [h2] at hp
        simp only [Option.map_some'] at hp
        have hp' := Option.some.inj hp
        have hc : r1.2.1 = r2.2.1 := congrArg Prod.fst hp'
        have hfa : r1.2.2 = r2.2.2 := congrArg Prod.snd hp'
        simp only [Option.some_bind]
        by_cases hf : r1.2.2
        · rw [if_pos hf, if_pos (hfa ▸ hf)]
          simp [hc]
        · rw [if_neg hf, if_neg (fun hx => hf (hfa ▸ hx))]
          cases hl1 : usersLoop d uf i1 rest with
          | none =>
            rw [hl1] at hrec
            cases hl2 : usersLoop d uf i2 rest with
            | none => rfl
            | some pr2 =>
              rw [hl2] at hrec
              exact absurd hrec (by simp)
          | some pr1 =>
            rw [hl1] at hrec
            cases hl2 : usersLoop d uf i2 rest with
            | none =>
              rw [hl2] at hrec
              exact absurd hrec (by simp)
            | some pr2 =>
              rw [hl2] at hrec
              simp only [Option.map_some'] at hrec ⊢
              have hrec' := Option.some.inj hrec
              have h3 : pr1.calls = pr2.calls := congrArg Prod.fst hrec'
              have h4 : pr1.fatal = pr2.fatal := congrArg Prod.snd hrec'
              simp [hc, h3, h4]

theorem groupsLoop_proj (d : DomainChanger) (gf : Group → Bool)
    (i1 i2 : GoStr → GoStr → Bool) :
    ∀ gl : List Group,
      (groupsLoop d gf i1 gl).map (fun pr => (pr.calls, pr.fatal)) =
        (groupsLoop d gf i2 gl).map (fun pr => (pr.calls, pr.fatal))
  | [] => rfl
  | g :: rest => by
    have hp := processGroup_proj d gf i1 i2 g
    have hrec := groupsLoop_proj d gf i1 i2 rest
    unfold groupsLoop
    cases h1 : processGroup d gf i1 g with
    | none =>
      rw [h1] at hp
      cases h2 : processGroup d gf i2 g with
      | none => rfl
      | some r2 =>
        rw [h2] at hp
        exact absurd hp (by simp)
    | some r1 =>
      rw [h1] at hp
      cases h2 : processGroup d gf i2 g with
      | none =>
        rw [h2] at hp
        exact absurd hp (by simp)
      | some r2 =>
        rw [h2] at hp
        simp only [Option.map_some'] at hp
        have hp' := Option.some.inj hp
        have hc : r1.2.1 = r2.2.1 := congrArg Prod.fst hp'
        have hfa : r1.2.2 = r2.2.2 := congrArg Prod.snd hp'
        simp only [Option.some_bind]
        by_cases hf : r1.2.2
        · rw [if_pos hf, if_pos (hfa ▸ hf)]
          simp [hc]
        · rw [if_neg hf, if_neg (fun hx => hf (hfa ▸ hx))]
          cases hl1 : groupsLoop d gf i1 rest with
          | none =>
            rw [hl1] at hrec
            cases hl2 : groupsLoop d gf i2 rest with
            | none => rfl
            | some pr2 =>
              rw [hl2] at hrec
              exact absurd hrec (by simp)
          | some pr1 =>
            rw [hl1] at hrec
            cases hl2 : groupsLoop d gf i2 rest with
            | none =>
              rw [hl2] at hrec
              exact absurd hrec (by simp)
            | some pr2 =>
              rw [hl2] at hrec
              simp only [Option.map_some'] at hrec ⊢
              have hrec' := Option.some.inj hrec
              have h3 : pr1.calls = pr2.calls := congrArg Prod.fst hrec'
              have h4 : pr1.fatal = pr2.fatal := congrArg Prod.snd hrec'
              simp [hc, h3, h4]

/-- A completed no-update-failure user pass is never fatal. -/
theorem UpdateUsers_not_fatal {d : DomainChanger} {ifail : GoStr → GoStr → Bool}
    {dir : List User} {pr : PassResult User}
    (h : UpdateUsers d noUpdateFail ifail dir = some pr) : pr.fatal = false := by
  unfold UpdateUsers at h
  rcases Option.map_eq_some'.mp h with ⟨pl, hpl, heq⟩
  have hrec := usersLoop_not_fatal hpl
  rw [← heq]
  exact hrec

/-- A completed no-update-failure group pass is never fatal. -/
theorem UpdateGroups_not_fatal {d : DomainChanger} {ifail : GoStr → GoStr → Bool}
    {dir : List Group} {pr : PassResult Group}
    (h : UpdateGroups d noGroupUpdateFail ifail dir = some pr) : pr.fatal = false := by
  unfold UpdateGroups at h
  rcases Option.map_eq_some'.mp h with ⟨pl, hpl, heq⟩
  have hrec := groupsLoop_not_fatal hpl
  rw [← heq]
  exact hrec

/-- Aliases are only ever appended: every pre-run alias of a user survives
its reconciliation step, whatever the transport oracles say. -/
theorem processUser_aliases_preserved {d : DomainChanger} {uf : User → Bool}
    {ifail : GoStr → GoStr → Bool} {u : User} {r : User × List Call × Bool}
    (h : processUser d uf ifail u = some r) : ∀ a ∈ u.aliases, a ∈ r.1.aliases := by
  rcases Option.bind_eq_some.mp h with ⟨P, hP, h2⟩
  by_cases hPe : P = u.primaryEmail
  · rw [if_pos hPe] at h2
    rcases Option.map_eq_some'.mp h2 with ⟨ac, hac, heq⟩
    intro a ha
    rw [← congrArg (fun t => t.1) heq]
    exact List.mem_append.mpr (Or.inl ha)
  · rw [if_neg hPe] at h2
    by_cases hf : uf { u with primaryEmail := P }
    · rw [if_pos hf] at h2
      intro a ha
      rw [← congrArg (fun t => t.1) (Option.some.inj h2)]
      exact ha
    · rw [if_neg hf] at h2
      rcases Option.map_eq_some'.mp h2 with ⟨ac, hac, heq⟩
      intro a ha
      rw [← congrArg (fun t => t.1) heq]
      exact List.mem_append.mpr (Or.inl ha)

/-- Aliases are only ever appended, group version. -/
theorem processGroup_aliases_preserved {d : DomainChanger} {gf : Group → Bool}
    {ifail : GoStr → GoStr → Bool} {g : Group} {r : Group × List Call × Bool}
    (h : processGroup d gf ifail g = some r) : ∀ a ∈ g.aliases, a ∈ r.1.aliases := by
  rcases Option.bind_eq_some.mp h with ⟨P, hP, h2⟩
  by_cases hPe : P = g.email
  · rw [if_pos hPe] at h2
    rcases Option.map_eq_some'.mp h2 with ⟨ac, hac, heq⟩
    intro a ha
    rw [← congrArg (fun t => t.1) heq]
    exact List.mem_append.mpr (Or.inl ha)
  · rw [if_neg hPe] at h2
    by_cases hf : gf { g with email := P }
    · rw [if_pos hf] at h2
      intro a ha
      rw [← congrArg (fun t => t.1) (Option.some.inj h2)]
      exact ha
    · rw [if_neg hf] at h2
      rcases Option.map_eq_some'.mp h2 with ⟨ac, hac, heq⟩
      intro a ha
      rw [← congrArg (fun t => t.1) heq]
      exact List.mem_append.mpr (Or.inl ha)

/-! ### Concrete fixtures used by witnesses and counterexamples -/

/-- A typical changer: old domain `old.com`, new domain `new.com`. -/
def dT : DomainChanger := { oldDomain := gs "old.com", newDomain := gs "new.com" }

/-- Two decimal digits of `n < 100`. -/
def twoDigits (n : Nat) : GoStr := [Char.ofNat (48 + n / 10), Char.ofNat (48 + n % 10)]

/-- The `n`-th of 51 users `u@aNN`, all needing a rename, no aliases. -/
def mkUser51 (n : Nat) : User :=
  { id := twoDigits n, fullName := [], primaryEmail := gs "u@a" ++ twoDigits n, aliases := [] }

/-- A directory of 51 users — one more than the single listed page holds. -/
def dir51 : List User := (List.range 51).map mkUser51

/-- Changer for the 51-user account: every `u@aNN` must become `u@b`. -/
def d51 : DomainChanger := { oldDomain := gs "a", newDomain := gs "b" }

/-- The principal key a mutation call addresses. -/
def callKey : Call → GoStr
  | Call.usersUpdate k _ => k
  | Call.userAliasInsert k _ _ => k
  | Call.groupsUpdate k _ => k
  | Call.groupAliasInsert k _ _ => k

/-- Transport oracle under which every user update call fails. -/
def ufAlways : User → Bool := fun _ => true

def uX : User := { id := gs "1", fullName := [], primaryEmail := gs "a@old.com", aliases := [] }

def uY : User := { id := gs "2", fullName := [], primaryEmail := gs "b@old.com", aliases := [] }

def uAlice : User :=
  { id := gs "9", fullName := [], primaryEmail := gs "alice@old.com", aliases := [] }

def uDup : User :=
  { id := gs "7", fullName := [], primaryEmail := gs "p@old.com",
    aliases := [gs "x@a", gs "x@b"] }

def uCw : User :=
  { id := gs "3", fullName := [], primaryEmail := gs "carol@new.com",
    aliases := [gs "carol@old.com"] }

def gCw : Group :=
  { id := gs "4", name := [], email := gs "team@new.com", aliases := [gs "team@old.com"] }

def uCar : User :=
  { id := gs "5", fullName := [], primaryEmail := gs "carol@new.com", aliases := [] }

def uCase : User :=
  { id := gs "10", fullName := [], primaryEmail := gs "bob@old.com",
    aliases := [gs "Bob@old.com"] }

def uW : User := { id := gs "11", fullName := [], primaryEmail := gs "x@new.com", aliases := [] }

def gW : Group := { id := gs "12", name := [], email := gs "y@new.com", aliases := [] }

def custOld : Customer := { id := gs "C", customerDomain := gs "old.com" }

def custNew : Customer := { id := gs "C", customerDomain := gs "new.com" }

/-! ### Claim C1 -/

/-- Claim C1: the spec says the user pass processes every user in the account,
however many pages the listing spans.  Evaluating the code on a 51-user
account (all 51 needing a rename) refutes this: `UpdateUsers` issues a single
`Users.List` call capped at `MaxResults(50)` and never follows a page token,
so the pass completes having issued only 50 calls, none addressed to user
`50`, whose record is left untouched. -/
theorem claim1_truncated_to_one_page :
    dir51.length = 51 ∧
    ((UpdateUsers d51 noUpdateFail noInsertFail dir51).map fun r =>
      (r.calls.length, decide (mkUser51 50 ∈ r.state),
        r.calls.all fun c => !(callKey c == twoDigits 50), r.fatal)) =
      some (50, true, true, false) := by
  decide

/-! ### Claim C2 -/

/-- Claim C2 counterexample: for the user `alice@old.com` with an empty alias
set, the address `alice@old.com` is reachable before the run (it is the
primary email) but not after: the run renames the primary to `alice@new.com`
and inserts no alias at all, so reachability preservation fails exactly as
the claim's "in particular" case asserts it should hold. -/
theorem claim2_counterexample :
    ((processUser dT noUpdateFail noInsertFail uAlice).map fun r =>
      decide (gs "alice@old.com" = r.1.primaryEmail ∨ gs "alice@old.com" ∈ r.1.aliases)) =
      some false := by
  decide

/-- Claim C2 (amended): aliases are only ever appended, so every address in a
principal's pre-run alias set is still reachable after its reconciliation
step, for users and for groups; the pre-run primary of a renamed principal,
by contrast, stays reachable only if it also occurs among the aliases. -/
theorem claim2_alias_reachability :
    (∀ (d : DomainChanger) (uf : User → Bool) (ifail : GoStr → GoStr → Bool)
        (u : User) (r : User × List Call × Bool),
        processUser d uf ifail u = some r →
        ∀ a ∈ u.aliases, a = r.1.primaryEmail ∨ a ∈ r.1.aliases) ∧
    (∀ (d : DomainChanger) (gf : Group → Bool) (ifail : GoStr → GoStr → Bool)
        (g : Group) (r : Group × List Call × Bool),
        processGroup d gf ifail g = some r →
        ∀ a ∈ g.aliases, a = r.1.email ∨ a ∈ r.1.aliases) :=
  ⟨fun _ _ _ _ _ h a ha => Or.inr (processUser_aliases_preserved h a ha),
   fun _ _ _ _ _ h a ha => Or.inr (processGroup_aliases_preserved h a ha)⟩

/-- Claim C2 witness: concrete instantiation of the amended reachability
theorem at a user and a group. -/
theorem claim2_witness :
    (gs "carol@old.com" = uCw.primaryEmail ∨ gs "carol@old.com" ∈ uCw.aliases) ∧
    (gs "team@old.com" = gCw.email ∨ gs "team@old.com" ∈ gCw.aliases) :=
  ⟨claim2_alias_reachability.1 dT noUpdateFail noInsertFail uCw (uCw, [], false)
      (by decide) (gs "carol@old.com") (by decide),
   claim2_alias_reachability.2 dT noGroupUpdateFail noInsertFail gCw (gCw, [], false)
      (by decide) (gs "team@old.com") (by decide)⟩

/-! ### Claim C3 -/

/-- Claim C3 counterexample: a 2-user pass in which the first user's
`Users.Update` call fails.  The pass aborts fatally after that single call:
the second user is never reconciled (no call carries its key, its record is
untouched), refuting the claim that a failed primary-email update is logged
and processing continues with the next principal. -/
theorem claim3_counterexample :
    UpdateUsers dT ufAlways noInsertFail [uX, uY] =
      some ⟨[uX, uY],
        [Call.usersUpdate (gs "1") { uX with primaryEmail := gs "a@new.com" }], true⟩ := by
  decide

/-- Claim C3 (amended): the two error policies the code actually implements,
in both passes.  A failed primary-email update is fatal (`log.Fatalf`): the
pass stops after that one call and the remaining principals are never
processed.  A failed alias insert is non-fatal and only reported: the calls
issued and the fatality verdict are identical under every insert-failure
oracle. -/
theorem claim3_error_policy :
    (∀ (d : DomainChanger) (ifail : GoStr → GoStr → Bool) (uf : User → Bool)
        (u : User) (rest : List User) (e : GoStr),
        emailNewDomain d u.primaryEmail = some e → e ≠ u.primaryEmail →
        uf { u with primaryEmail := e } = true →
        usersLoop d uf ifail (u :: rest) =
          some ⟨u :: rest, [Call.usersUpdate u.id { u with primaryEmail := e }], true⟩) ∧
    (∀ (d : DomainChanger) (uf : User → Bool) (i1 i2 : GoStr → GoStr → Bool)
        (us : List User),
        (usersLoop d uf i1 us).map (fun pr => (pr.calls, pr.fatal)) =
          (usersLoop d uf i2 us).map (fun pr => (pr.calls, pr.fatal))) ∧
    (∀ (d : DomainChanger) (ifail : GoStr → GoStr → Bool) (gf : Group → Bool)
        (g : Group) (rest : List Group) (e : GoStr),
        emailNewDomain d g.email = some e → e ≠ g.email →
        gf { g with email := e } = true →
        groupsLoop d gf ifail (g :: rest) =
          some ⟨g :: rest, [Call.groupsUpdate g.id { g with email := e }], true⟩) ∧
    (∀ (d : DomainChanger) (gf : Group → Bool) (i1 i2 : GoStr → GoStr → Bool)
        (gl : List Group),
        (groupsLoop d gf i1 gl).map (fun pr => (pr.calls, pr.fatal)) =
          (groupsLoop d gf i2 gl).map (fun pr => (pr.calls, pr.fatal))) :=
  ⟨usersLoop_update_failure_fatal, usersLoop_proj,
   groupsLoop_update_failure_fatal, groupsLoop_proj⟩

/-- Claim C3 witness: the fatality conjunct instantiated at a concrete
two-user list whose first update fails. -/
theorem claim3_witness :
    usersLoop dT ufAlways noInsertFail [uX, uY] =
      some ⟨[uX, uY],
        [Call.usersUpdate (gs "1") { uX with primaryEmail := gs "a@new.com" }], true⟩ :=
  claim3_error_policy.1 dT noInsertFail ufAlways uX [uY] (gs "a@new.com")
    (by decide) (by decide) (by decide)

/-! ### Claim C4 -/

/-- Claim C4 counterexample: with the 51-user account, the first full
reconciliation renames only the 50 users of its single page; the second run
re-lists (ordered by the now-changed emails), finds user `u@a50` on its page
and issues a fresh update call, so the second run is not a no-op. -/
theorem claim4_counterexample :
    (((reconcile d51 noUpdateFail noInsertFail noGroupUpdateFail noInsertFail dir51 []).bind
        fun r =>
          reconcile d51 noUpdateFail noInsertFail noGroupUpdateFail noInsertFail
            r.users r.groups).map
      fun r2 => r2.calls.isEmpty) = some false := by
  decide

/-- Claim C4 (amended): provided each directory fits in the single page its
pass lists (at most 50 users, at most 200 groups) and the new domain contains
no `@`, a completed no-failure reconciliation is idempotent: running it again
on the resulting state issues zero update and zero insert calls. -/
theorem claim4_idempotent_within_page {d : DomainChanger} {udir : List User}
    {gdir : List Group} {r : ReconResult}
    (hdom : '@' ∉ d.newDomain) (hu : udir.length ≤ 50) (hg : gdir.length ≤ 200)
    (h : reconcile d noUpdateFail noInsertFail noGroupUpdateFail noInsertFail udir gdir =
      some r) :
    ∃ r2, reconcile d noUpdateFail noInsertFail noGroupUpdateFail noInsertFail
        r.users r.groups = some r2 ∧ r2.calls = [] ∧ r2.fatal = false := by
  unfold reconcile at h
  rcases Option.bind_eq_some.mp h with ⟨ru, hru, h2⟩
  rw [UpdateUsers_not_fatal hru] at h2
  simp only [if_neg Bool.false_ne_true] at h2
  rcases Option.map_eq_some'.mp h2 with ⟨rg, hrg, heq⟩
  have husers : r.users = ru.state := (congrArg ReconResult.users heq).symm
  have hgroups : r.groups = rg.state := (congrArg ReconResult.groups heq).symm
  have hu2 := UpdateUsers_second_run hdom hu hru
  have hg2 := UpdateGroups_second_run hdom hg hrg
  refine ⟨⟨applyRunUsers ru.state (listUsers ru.state),
      applyRunGroups rg.state (listGroups rg.state), [], false⟩, ?_, rfl, rfl⟩
  unfold reconcile
  rw [husers, hgroups, hu2, Option.some_bind]
  simp only [if_neg Bool.false_ne_true]
  rw [hg2, Option.map_some']
  rfl

/-- Claim C4 witness: the within-page idempotence theorem applied to a
one-user, one-group directory that a first run maps to itself. -/
theorem claim4_witness :
    ∃ r2, reconcile dT noUpdateFail noInsertFail noGroupUpdateFail noInsertFail [uW] [gW] =
        some r2 ∧ r2.calls = [] ∧ r2.fatal = false :=
  @claim4_idempotent_within_page dT [uW] [gW] ⟨[uW], [gW], [], false⟩
    (by decide) (by decide) (by decide) (by decide)

/-! ### Claim C5 -/

/-- Claim C5: the spec claims an address without `@` makes
`changeEmailDomain` fail with a `MalformedAddress` error rather than crash.
The code has no such branch: `strings.Split` yields a single segment and the
write `addrParts[1] = domain` is an out-of-bounds slice access, i.e. a
runtime panic, which the embedding records as `none`. -/
theorem claim5_no_at_is_panic :
    (splitChar '@' (gs "bobold.com")).length = 1 ∧
    changeEmailDomain dT (gs "bobold.com") (gs "new.com") = none := by
  decide

/-! ### Claim C6 -/

/-- Claim C6: for every address `local@domain` with exactly one `@` (no `@`
in either part), rewriting to `newDomain` yields `local@newDomain` with the
local part byte-identical to the input's. -/
theorem claim6_domain_segment_only_rewrite (d : DomainChanger) (lcl dom nd : GoStr)
    (h1 : '@' ∉ lcl) (h2 : '@' ∉ dom) :
    changeEmailDomain d (lcl ++ '@' :: dom) nd = some (lcl ++ '@' :: nd) := by
  have hs : splitChar '@' (lcl ++ '@' :: dom) = lcl :: splitChar '@' dom :=
    splitChar_append_cons '@' dom h1
  rw [splitChar_of_not_mem '@' dom h2] at hs
  rw [changeEmailDomain_of_split d nd hs]
  rfl

/-- Claim C6 witness: `bob@old.com` rewritten to `new.com`. -/
theorem claim6_witness :
    changeEmailDomain dT (gs "bob" ++ '@' :: gs "old.com") (gs "new.com") =
      some (gs "bob" ++ '@' :: gs "new.com") :=
  claim6_domain_segment_only_rewrite dT (gs "bob") (gs "old.com") (gs "new.com")
    (by decide) (by decide)

/-! ### Claim C7 -/

/-- Claim C7 counterexample: user `p@old.com` with aliases `x@a` and `x@b`
(both rewriting to `x@new.com`).  The membership check is only against the
original alias list, so the pass issues the same insert twice — an insert
call for an address already inserted earlier in the same pass, and a
resulting alias collection with a duplicate entry. -/
theorem claim7_counterexample :
    UpdateUserAliases dT uDup =
      some [Call.userAliasInsert (gs "7") (gs "x@new.com") (gs "p@old.com"),
        Call.userAliasInsert (gs "7") (gs "x@new.com") (gs "p@old.com")] := by
  decide

/-- Claim C7 (amended): the only deduplication the alias sub-pass performs is
against the principal's pre-existing alias collection: every insert call it
issues is for an address not already in that collection (users and groups).
Distinct aliases rewriting to the same candidate still produce duplicate
inserts within one pass. -/
theorem claim7_no_insert_of_existing_alias :
    (∀ (d : DomainChanger) (u : User) (cs : List Call),
        UpdateUserAliases d u = some cs →
        ∀ k x p, Call.userAliasInsert k x p ∈ cs → x ∉ u.aliases) ∧
    (∀ (d : DomainChanger) (g : Group) (cs : List Call),
        UpdateGroupAliases d g = some cs →
        ∀ k x e, Call.groupAliasInsert k x e ∈ cs → x ∉ g.aliases) := by
  constructor
  · intro d u cs h k x p hc
    rcases Option.bind_eq_some.mp h with ⟨oldA, holdA, hloop⟩
    rcases userAliasLoop_calls hloop _ hc with ⟨a, -, -, nA, -, hfalse, heq⟩
    have hx : x = nA := by injection heq
    rw [hx]
    intro hmem
    rw [(hasAlias_iff_mem d nA u.aliases).mpr hmem] at hfalse
    exact absurd hfalse (by simp)
  · intro d g cs h k x e hc
    rcases Option.bind_eq_some.mp h with ⟨oldA, holdA, hloop⟩
    rcases groupAliasLoop_calls hloop _ hc with ⟨a, -, -, nA, -, hfalse, heq⟩
    have hx : x = nA := by injection heq
    rw [hx]
    intro hmem
    rw [(hasAlias_iff_mem d nA g.aliases).mpr hmem] at hfalse
    exact absurd hfalse (by simp)

/-- Claim C7 witness: the amended theorem instantiated at the duplicate-insert
user — the inserted address is indeed absent from the original collection. -/
theorem claim7_witness : gs "x@new.com" ∉ uDup.aliases :=
  claim7_no_insert_of_existing_alias.1 dT uDup
    [Call.userAliasInsert (gs "7") (gs "x@new.com") (gs "p@old.com"),
      Call.userAliasInsert (gs "7") (gs "x@new.com") (gs "p@old.com")]
    (by decide) (gs "7") (gs "x@new.com") (gs "p@old.com") (by decide)

/-! ### Claim C8 helpers -/

theorem processUser_already_current {d : DomainChanger} {uf : User → Bool}
    {ifail : GoStr → GoStr → Bool} {u : User}
    (hP : emailNewDomain d u.primaryEmail = some u.primaryEmail) :
    ∀ r, processUser d uf ifail u = some r →
      r.1.primaryEmail = u.primaryEmail ∧ r.2.2 = false ∧
        ∀ k v, Call.usersUpdate k v ∉ r.2.1 := by
  intro r hr
  unfold processUser at hr
  rw [hP, Option.some_bind, if_pos rfl] at hr
  rcases Option.map_eq_some'.mp hr with ⟨ac, hac, heq⟩
  refine ⟨?_, ?_, ?_⟩
  · rw [← heq]
  · rw [← heq]
  · rw [← heq]
    intro k v hmem
    rcases Option.bind_eq_some.mp hac with ⟨oldA, holdA, hloop⟩
    rcases userAliasLoop_calls hloop _ hmem with ⟨a, -, -, nA, -, -, heq2⟩
    exact Call.noConfusion heq2

theorem processUser_already_current_no_aliases {d : DomainChanger} {uf : User → Bool}
    {ifail : GoStr → GoStr → Bool} {u : User}
    (hP : emailNewDomain d u.primaryEmail = some u.primaryEmail)
    (hnil : u.aliases = []) : processUser d uf ifail u = some (u, [], false) := by
  have hUA : UpdateUserAliases d u = some [] := by
    unfold UpdateUserAliases
    rcases changeEmailDomain_some hP d.oldDomain with ⟨oldA, holdA⟩
    have holdA' : emailOldDomain d u.primaryEmail = some oldA := holdA
    rw [holdA', Option.some_bind, hnil]
    rfl
  unfold processUser
  rw [hP, Option.some_bind, if_pos rfl, hUA, Option.map_some']
  rw [show insertedUserAliases ifail u.id [] = [] from rfl, List.append_nil]

theorem processGroup_already_current {d : DomainChanger} {gf : Group → Bool}
    {ifail : GoStr → GoStr → Bool} {g : Group}
    (hP : emailNewDomain d g.email = some g.email) :
    ∀ r, processGroup d gf ifail g = some r →
      r.1.email = g.email ∧ r.2.2 = false ∧
        ∀ k v, Call.groupsUpdate k v ∉ r.2.1 := by
  intro r hr
  unfold processGroup at hr
  rw [hP, Option.some_bind, if_pos rfl] at hr
  rcases Option.map_eq_some'.mp hr with ⟨ac, hac, heq⟩
  refine ⟨?_, ?_, ?_⟩
  · rw [← heq]
  · rw [← heq]
  · rw [← heq]
    intro k v hmem
    rcases Option.bind_eq_some.mp hac with ⟨oldA, holdA, hloop⟩
    rcases groupAliasLoop_calls hloop _ hmem with ⟨a, -, -, nA, -, -, heq2⟩
    exact Call.noConfusion heq2

theorem processGroup_already_current_no_aliases {d : DomainChanger} {gf : Group → Bool}
    {ifail : GoStr → GoStr → Bool} {g : Group}
    (hP : emailNewDomain d g.email = some g.email)
    (hnil : g.aliases = []) : processGroup d gf ifail g = some (g, [], false) := by
  have hUA : UpdateGroupAliases d g = some [] := by
    unfold UpdateGroupAliases
    rcases changeEmailDomain_some hP d.oldDomain with ⟨oldA, holdA⟩
    have holdA' : emailOldDomain d g.email = some oldA := holdA
    rw [holdA', Option.some_bind, hnil]
    rfl
  unfold processGroup
  rw [hP, Option.some_bind, if_pos rfl, hUA, Option.map_some']
  rw [show insertedGroupAliases ifail g.id [] = [] from rfl, List.append_nil]

/-! ### Claim C8 -/

/-- Claim C8: a principal whose primary email already uses the new domain
(the rewrite returns it unchanged) gets no update call and keeps its primary
email; if it moreover has no aliases, its reconciliation issues zero calls
and leaves the record untouched — for users and for groups, under any
transport oracles. -/
theorem claim8_already_current_no_update :
    (∀ (d : DomainChanger) (uf : User → Bool) (ifail : GoStr → GoStr → Bool) (u : User),
        emailNewDomain d u.primaryEmail = some u.primaryEmail →
        (∀ r, processUser d uf ifail u = some r →
            r.1.primaryEmail = u.primaryEmail ∧ r.2.2 = false ∧
              ∀ k v, Call.usersUpdate k v ∉ r.2.1) ∧
        (u.aliases = [] → processUser d uf ifail u = some (u, [], false))) ∧
    (∀ (d : DomainChanger) (gf : Group → Bool) (ifail : GoStr → GoStr → Bool) (g : Group),
        emailNewDomain d g.email = some g.email →
        (∀ r, processGroup d gf ifail g = some r →
            r.1.email = g.email ∧ r.2.2 = false ∧
              ∀ k v, Call.groupsUpdate k v ∉ r.2.1) ∧
        (g.aliases = [] → processGroup d gf ifail g = some (g, [], false))) :=
  ⟨fun _ _ _ _ hP =>
    ⟨processUser_already_current hP, processUser_already_current_no_aliases hP⟩,
   fun _ _ _ _ hP =>
    ⟨processGroup_already_current hP, processGroup_already_current_no_aliases hP⟩⟩

/-- Claim C8 witness: a user already at `carol@new.com` with no aliases is a
zero-call no-op. -/
theorem claim8_witness :
    processUser dT noUpdateFail noInsertFail uCar = some (uCar, [], false) :=
  (claim8_already_current_no_update.1 dT noUpdateFail noInsertFail uCar (by decide)).2
    (by decide)

/-! ### Claim C9 -/

/-- Claim C9: the two confirmation gates, characterised exactly.  When the
customer's domain differs from the target, exactly the inputs lowercasing to
`y` proceed with the customer update, and every other input aborts.  When the
customer's domain already equals the target, exactly the inputs lowercasing
to `n` abort, and every other input skips the update and proceeds to the
user/group passes. -/
theorem claim9_confirmation_gates (d : DomainChanger) (cust : Customer) (code : GoStr) :
    (cust.customerDomain ≠ d.newDomain →
      (ChangePrimaryDomain d cust code =
          DomainGate.updatedCustomer { cust with customerDomain := d.newDomain } ↔
        goToLower code = gs "y") ∧
      (goToLower code ≠ gs "y" → ChangePrimaryDomain d cust code = DomainGate.abortRun)) ∧
    (cust.customerDomain = d.newDomain →
      (ChangePrimaryDomain d cust code = DomainGate.abortRun ↔ goToLower code = gs "n") ∧
      (goToLower code ≠ gs "n" →
        ChangePrimaryDomain d cust code = DomainGate.continueWithoutUpdate)) := by
  constructor
  · intro hne
    have hbeq : (cust.customerDomain == d.newDomain) = false := beq_eq_false_iff_ne.mpr hne
    refine ⟨⟨?_, ?_⟩, ?_⟩
    · intro hupd
      by_cases hy : goToLower code = gs "y"
      · exact hy
      · simp [ChangePrimaryDomain, checkNewDomain, hbeq, hy] at hupd
    · intro hy
      simp [ChangePrimaryDomain, checkNewDomain, hbeq, hy]
    · intro hy
      simp [ChangePrimaryDomain, checkNewDomain, hbeq, hy]
  · intro heq2
    have hbeq : (cust.customerDomain == d.newDomain) = true := beq_iff_eq.mpr heq2
    refine ⟨⟨?_, ?_⟩, ?_⟩
    · intro habort
      by_cases hn : goToLower code = gs "n"
      · exact hn
      · simp [ChangePrimaryDomain, checkNewDomain, hbeq, hn] at habort
    · intro hn
      simp [ChangePrimaryDomain, checkNewDomain, hbeq, hn]
    · intro hn
      simp [ChangePrimaryDomain, checkNewDomain, hbeq, hn]

/-- Claim C9 witness: `Y` updates at the differing-domain gate, `q` aborts
there; at the already-current gate `x` proceeds without an update and `N`
aborts. -/
theorem claim9_witness :
    ChangePrimaryDomain dT custOld (gs "Y") = DomainGate.updatedCustomer custNew ∧
    ChangePrimaryDomain dT custOld (gs "q") = DomainGate.abortRun ∧
    ChangePrimaryDomain dT custNew (gs "x") = DomainGate.continueWithoutUpdate ∧
    ChangePrimaryDomain dT custNew (gs "N") = DomainGate.abortRun :=
  ⟨((claim9_confirmation_gates dT custOld (gs "Y")).1 (by decide)).1.mpr (by decide),
   ((claim9_confirmation_gates dT custOld (gs "q")).1 (by decide)).2 (by decide),
   ((claim9_confirmation_gates dT custNew (gs "x")).2 (by decide)).2 (by decide),
   ((claim9_confirmation_gates dT custNew (gs "N")).2 (by decide)).1.mpr (by decide)⟩

/-! ### Claim C10 -/

/-- Claim C10: all address comparisons are exact byte-for-byte string
equality.  `hasAlias` answers true exactly when an equal string is present,
and an alias differing from the reconstructed old-primary address in any way
(letter case included) is not treated as preserving it: its new-domain
rewrite is inserted whenever absent from the alias list. -/
theorem claim10_exact_string_comparison :
    (∀ (d : DomainChanger) (x : GoStr) (as : List GoStr),
        hasAlias d x as = true ↔ x ∈ as) ∧
    (∀ (d : DomainChanger) (u : User) (oldA : GoStr) (cs : List Call) (a nA : GoStr),
        emailOldDomain d u.primaryEmail = some oldA →
        UpdateUserAliases d u = some cs →
        a ∈ u.aliases → a ≠ oldA → emailNewDomain d a = some nA →
        hasAlias d nA u.aliases = false →
        Call.userAliasInsert u.id nA u.primaryEmail ∈ cs) := by
  constructor
  · exact hasAlias_iff_mem
  · intro d u oldA cs a nA holdA hUA hmem hne hnA hfalse
    rcases Option.bind_eq_some.mp hUA with ⟨oldA', holdA', hloop⟩
    have hoeq : oldA' = oldA := Option.some.inj (holdA'.symm.trans holdA)
    subst hoeq
    rcases userAliasLoop_complete hloop a hmem hne with ⟨nA', hnA', hor⟩
    have hnAeq : nA' = nA := Option.some.inj (hnA'.symm.trans hnA)
    subst hnAeq
    rcases hor with hor | hor
    · rw [hor] at hfalse
      exact absurd hfalse (by simp)
    · exact hor

/-- Claim C10 witness: for primary `bob@old.com` with alias `Bob@old.com`
(case-differing from the reconstructed old primary), the alias is mirrored:
an insert of `Bob@new.com` is issued. -/
theorem claim10_witness :
    Call.userAliasInsert (gs "10") (gs "Bob@new.com") (gs "bob@old.com") ∈
      [Call.userAliasInsert (gs "10") (gs "Bob@new.com") (gs "bob@old.com")] :=
  claim10_exact_string_comparison.2 dT uCase (gs "bob@old.com")
    [Call.userAliasInsert (gs "10") (gs "Bob@new.com") (gs "bob@old.com")]
    (gs "Bob@old.com") (gs "Bob@new.com")
    (by decide) (by decide) (by decide) (by decide) (by decide) (by decide)

end GaChangePrimaryDomain
